import Mathlib

/-!
Shallow embedding of `src/bcconvert.py` (beckjake/bcconvert).

The program batch-converts flac files to mp3: it unzips archives,
enumerates flac files, and for each file runs tag extraction (a `metaflac`
listing parsed into deferred tag-setter closures) concurrently with a
two-stage `flac | lame` transcode pipe, then commits by applying the tags
to the output file and deleting the source.

Modelling choices:
  * Bytes/str values are modelled as `String` (ASCII; `lower()`, `\w`, `\s`
    and `int()` are modelled on ASCII, which covers every value the claims
    touch).
  * The filesystem is a state `St` of file paths, directory paths and a
    per-path tag container (the persisted ID3 tag of an mp3 file).
  * External processes are an oracle `Env`: `procSem args stdin` gives the
    exit code and stdout of one program invocation, `lameCreates p` tells
    whether the lame stage left a file at its output path, `zipContents z`
    lists the member names of a zip archive, `available c` tells whether an
    executable can be launched.
  * asyncio's single-threaded cooperative scheduling is serialised: inside
    `asyncio.gather(tag_setters, conversion)` the first coroutine is run to
    completion before the second.  The two coroutines touch disjoint state
    (tag extraction is read-only), so every property stated below is
    invariant under the real interleavings; orderings asserted by the
    theorems relate gather-phase events to post-gather events only.
    `asyncio.gather` in `main_loop` is modelled as raising the first
    child error, later pipelines being elided (one legal schedule of the
    loop shutdown that follows `run_until_complete` re-raising).
  * Python exceptions are the `Except PyErr` monad; `except RuntimeError`
    and the bare `except: pass` of the source are matched explicitly.
  * Generator laziness (`get_all_matching`) is snapshotted: the file list
    is read at the moment the generator is drained.  In `main_loop` the
    flac generator is drained before any conversion coroutine runs (the
    coroutines are only awaited by the final gather), which the phased
    model reproduces.
  * `asyncpipe.PipeBuilder` is not part of this repository; `pipeChain` is
    modelled from the spec: two processes started with the stdout of the
    first wired to the stdin of the second, resolving to the per-stage
    results, of which `pipe_cmds` (source) keeps `result[-1].returncode`.
-/

/-- Python exception classes that the source can raise or catch. -/
inductive PyErr
  | runtimeError
  | valueError
  | ioError
  | assertionError
  | fileNotFoundError
  | isADirectoryError
deriving DecidableEq, Repr

/-- ASCII whitespace, the byte-regex meaning of a whitespace class. -/
def pyIsSpace (c : Char) : Bool :=
  c = ' ' || c = '\t' || c = '\n' || c = '\r' || c = '\x0b' || c = '\x0c'

/-- Character class `[A-Za-z 0-9_]` of the metaflac comment-line regex. -/
def keyChar (c : Char) : Bool :=
  c.isAlpha || c.isDigit || c = ' ' || c = '_'

/-- Drop an expected literal from the front of a character list. -/
def dropLit : List Char → List Char → Option (List Char)
  | [], l => some l
  | _, [] => none
  | c :: cs, d :: ds => if c = d then dropLit cs ds else none

/-- Split a character list at every occurrence of a separator, like
`bytes.split`: the result is never empty and `[] ↦ [[]]`. -/
def splitOnChar (c : Char) (l : List Char) : List (List Char) :=
  l.foldr
    (fun ch acc =>
      match acc with
      | [] => [[ch]]
      | cur :: rest => if ch = c then [] :: cur :: rest else (ch :: cur) :: rest)
    [[]]

/-- Match of `re.match(br"\s+comment\[\d+\]: ([A-Za-z 0-9_]+)=(.*)", line)`:
whitespace, the literal `comment[`, digits, the literal `]: `, then the two
groups.  The key class excludes `=`, so the greedy key group is the maximal
class run, which must be followed by `=`; the value is the rest of the
line. -/
def lineKV (l : List Char) : Option (String × String) :=
  let ws := l.takeWhile pyIsSpace
  if ws.isEmpty then none else
  match dropLit "comment[".data (l.drop ws.length) with
  | none => none
  | some r₂ =>
    let ds := r₂.takeWhile Char.isDigit
    if ds.isEmpty then none else
    match dropLit "]: ".data (r₂.drop ds.length) with
    | none => none
    | some r₄ =>
      let key := r₄.takeWhile keyChar
      if key.isEmpty then none else
      match r₄.drop key.length with
      | '=' :: v => some (⟨key⟩, ⟨v⟩)
      | _ => none

/-- The six tag fields the source maps metaflac keys onto. -/
inductive TagField
  | title
  | artist
  | album
  | track_num
  | year
  | album_artist
deriving DecidableEq, Repr

/-- A deferred tag assignment: the closure `_setter(attr, f)(value)` of the
source captures the raw string value; any conversion (`int` for the track
number) happens only when the closure is applied to a tag. -/
structure TagSetter where
  field : TagField
  raw : String
deriving DecidableEq, Repr

/-- TAG_MAP of the source: the recognised metaflac comment keys. -/
def TAG_MAP (key : String) : Option TagField :=
  if key = "TITLE" then some .title
  else if key = "ARTIST" then some .artist
  else if key = "ALBUM" then some .album
  else if key = "TRACKNUMBER" then some .track_num
  else if key = "DATE" then some .year
  else if key = "ALBUMARTIST" then some .album_artist
  else none

/-- metaflac_stdout_to_setters of the source: split the listing on
newlines, match each line against the comment regex, look the key up in
TAG_MAP (a KeyError just skips the line), and yield one setter per
surviving line. -/
def metaflac_stdout_to_setters (output : String) : List TagSetter :=
  (splitOnChar '\n' output.data).filterMap
    (fun line =>
      match lineKV line with
      | some (k, v) => (TAG_MAP k).map (fun f => ⟨f, v⟩)
      | none => none)

/-- Strip ASCII whitespace from both ends, as `int(str)` does. -/
def pyStrip (l : List Char) : List Char :=
  ((l.dropWhile pyIsSpace).reverse.dropWhile pyIsSpace).reverse

/-- Digit run accepted by `int()` after the sign: nonempty, digits with
single underscores strictly between digits. -/
def digitsOk (l : List Char) : Bool :=
  match l with
  | [] => false
  | c :: _ =>
    c.isDigit && (l.getLastD '0').isDigit &&
    l.all (fun ch => ch.isDigit || ch = '_') &&
    (l.zip l.tail).all (fun p => !(p.1 = '_' && p.2 = '_'))

/-- Numeric value of a digit-and-underscore run. -/
def digitsVal (l : List Char) : Nat :=
  (l.filter Char.isDigit).foldl (fun acc c => acc * 10 + (c.toNat - 48)) 0

/-- Python `int(s)` on a string, `none` when it raises ValueError. -/
def pyInt (s : String) : Option Int :=
  match pyStrip s.data with
  | '+' :: r => if digitsOk r then some (digitsVal r : Int) else none
  | '-' :: r => if digitsOk r then some (-(digitsVal r : Int)) else none
  | r => if digitsOk r then some (digitsVal r : Int) else none

/-- The tag container of an output file: the six eyed3 attributes the
source ever sets.  A fresh lame-written file carries the placeholder tag
with no field set. -/
structure Tag where
  title : Option String := none
  artist : Option String := none
  album : Option String := none
  track_num : Option (Int × Option Int) := none
  year : Option String := none
  album_artist : Option String := none
deriving DecidableEq, Repr

/-- Apply one deferred setter to a tag container; the TRACKNUMBER setter is
`lambda x: (int(x), None)` and raises ValueError on a non-numeric value. -/
def applySetter (s : TagSetter) (t : Tag) : Except PyErr Tag :=
  match s.field with
  | .title => .ok { t with title := some s.raw }
  | .artist => .ok { t with artist := some s.raw }
  | .album => .ok { t with album := some s.raw }
  | .track_num =>
    match pyInt s.raw with
    | none => .error .valueError
    | some n => .ok { t with track_num := some (n, none) }
  | .year => .ok { t with year := some s.raw }
  | .album_artist => .ok { t with album_artist := some s.raw }

/-- Apply a setter list left to right, stopping at the first raise, as the
loop in set_tags does. -/
def applySetters : List TagSetter → Tag → Except PyErr Tag
  | [], t => .ok t
  | s :: rest, t =>
    match applySetter s t with
    | .error e => .error e
    | .ok t₁ => applySetters rest t₁

/-- Uniform read of one field of a tag container. -/
def fieldOf (t : Tag) : TagField → Option (String ⊕ (Int × Option Int))
  | .title => t.title.map .inl
  | .artist => t.artist.map .inl
  | .album => t.album.map .inl
  | .track_num => t.track_num.map .inr
  | .year => t.year.map .inl
  | .album_artist => t.album_artist.map .inl

/-- Raw value of the last setter for a given field in a setter list. -/
def lastRaw (setters : List TagSetter) (f : TagField) : Option String :=
  ((setters.filter (fun s => s.field == f)).getLast?).map TagSetter.raw

/-- The stored value a raw string converts to for a given field. -/
def convVal (f : TagField) (v : String) : Option (String ⊕ (Int × Option Int)) :=
  match f with
  | .track_num => (pyInt v).map (fun n => .inr (n, none))
  | _ => some (.inl v)

/-- ASCII `str.lower()`. -/
def pyToLower (s : String) : String := ⟨s.data.map Char.toLower⟩

/-- Python `str.endswith`. -/
def pyEndsWith (s suf : String) : Bool := suf.data.isSuffixOf s.data

/-- Index of the last occurrence of a character, Python `str.rfind`. -/
def lastIdxOf (c : Char) (l : List Char) : Option Nat :=
  (l.enum.filter (fun p => p.2 = c)).getLast?.map Prod.fst

/-- os.path.splitext on posix: split at the last dot that lies after the
last separator, unless the basename up to that dot is all dots. -/
def splitext (p : String) : String × String :=
  let l := p.data
  let start := match lastIdxOf '/' l with | none => 0 | some i => i + 1
  match lastIdxOf '.' l with
  | none => (p, "")
  | some d =>
    if start ≤ d then
      if ((l.drop start).take (d - start)).any (fun ch => ch ≠ '.') then
        (⟨l.take d⟩, ⟨l.drop d⟩)
      else (p, "")
    else (p, "")

/-- Output path of a source file: `os.path.splitext(flac_path)[0] + '.mp3'`. -/
def mp3Path (flac_path : String) : String := (splitext flac_path).1 ++ ".mp3"

/-- os.path.basename. -/
def basenameOf (p : String) : String :=
  ⟨(p.data.reverse.takeWhile (fun c => c ≠ '/')).reverse⟩

/-- Character class `[\w\s\d]` of HAPPY_ZIP_PAT (ASCII). -/
def happyClass (c : Char) : Bool :=
  c.isAlpha || c.isDigit || c = '_' || pyIsSpace c

/-- The `.` class of CHECK_ZIP_PAT (DOTALL off). -/
def dotClass (c : Char) : Bool := c ≠ '\n'

/-- Try to read `⟨group1⟩ - ⟨group2⟩` with the split after `i` characters,
both groups nonempty and inside the class. -/
def trySplitAt (cls : Char → Bool) (l : List Char) (i : Nat) : Option (String × String) :=
  let a := l.take i
  let m := (l.drop i).take 3
  let b := l.drop (i + 3)
  if !a.isEmpty && a.all cls && decide (m = [' ', '-', ' ']) && !b.isEmpty && b.all cls
  then some (⟨a⟩, ⟨b⟩) else none

/-- Greedy backtracking of `\A(C+) - (C+)\Z`: the first group takes the
longest feasible run, so the split is at the largest feasible index. -/
def greedyFrom (cls : Char → Bool) (l : List Char) : Nat → Option (String × String)
  | 0 => trySplitAt cls l 0
  | i + 1 =>
    match trySplitAt cls l (i + 1) with
    | some r => some r
    | none => greedyFrom cls l i

/-- Full anchored match of a `(C+) - (C+)` pattern against a string. -/
def reMatchTwoGroups (cls : Char → Bool) (s : String) : Option (String × String) :=
  greedyFrom cls s.data s.data.length

/-- generate_dest_dir_name of the source: assert the extension is `.zip`,
try HAPPY_ZIP_PAT then CHECK_ZIP_PAT on the basename, and join the two
groups with the path separator; no match gives None. -/
def generate_dest_dir_name (p : String) : Except PyErr (Option String) :=
  let fe := splitext p
  if pyToLower fe.2 ≠ ".zip" then .error .assertionError
  else
    match reMatchTwoGroups happyClass (basenameOf fe.1) with
    | some (a, b) => .ok (some (a ++ "/" ++ b))
    | none =>
      match reMatchTwoGroups dotClass (basenameOf fe.1) with
      | some (a, b) => .ok (some (a ++ "/" ++ b))
      | none => .ok none

/-- Observable actions of a run, for ordering and counting statements. -/
inductive Ev
  | metaflacRun (flac : String)
  | transcode (flac mp3 : String) (rc : Int)
  | fileRemoved (p : String)
  | tagSaved (mp3 : String)
  | skipped (mp3 : String)
  | unzipped (zip dest : String)
  | unzipSkipped (dest : String)
  | checkTools
deriving DecidableEq, Repr

/-- Filesystem-and-tags state threaded through the run. -/
structure St where
  files : List String
  dirs : List String
  tags : List (String × Tag)
deriving DecidableEq, Repr

/-- os.path.exists. -/
def existsPath (st : St) (p : String) : Bool :=
  st.files.contains p || st.dirs.contains p

/-- Record a file as present (idempotent). -/
def addFile (st : St) (p : String) : St :=
  if st.files.contains p then st else { st with files := st.files ++ [p] }

/-- Replace the stored tag container of one path. -/
def replaceTag (tags : List (String × Tag)) (p : String) (t : Tag) : List (String × Tag) :=
  (tags.filter (fun e => e.1 != p)) ++ [(p, t)]

/-- The lame stage writing its output file: the file appears carrying the
placeholder tag. -/
def addOutput (st : St) (mp3 : String) : St :=
  let st₁ := addFile st mp3
  { st₁ with tags := replaceTag st₁.tags mp3 {} }

/-- os.remove: deletes a file, raises IsADirectoryError on a directory and
FileNotFoundError on a missing path. -/
def osRemove (st : St) (p : String) : Except PyErr St :=
  if st.files.contains p then .ok { st with files := st.files.erase p }
  else if st.dirs.contains p then .error .isADirectoryError
  else .error .fileNotFoundError

/-- set_tags of the source: eyed3.load (raises when the path is no loadable
audio file), apply each setter to the tag, save.  A raise from a setter
aborts before the save, leaving the stored tag unchanged. -/
def set_tags (st : St) (p : String) (setters : List TagSetter) : Except PyErr St :=
  if st.files.contains p then
    match List.lookup p st.tags with
    | none => .error .ioError
    | some t =>
      match applySetters setters t with
      | .error e => .error e
      | .ok t₁ => .ok { st with tags := replaceTag st.tags p t₁ }
  else .error .ioError

/-- Exit code and stdout of one finished pipeline stage. -/
structure ProcRes where
  returncode : Int
  stdout : String
deriving DecidableEq, Repr

/-- External-world oracle for one run. -/
structure Env where
  procSem : List String → String → Int × String
  lameCreates : String → Bool
  zipContents : String → List String
  available : String → Bool

/-- Modelled from the spec: `asyncpipe.PipeBuilder.chain(a).chain(b)` (the
library is not part of this repository) starts both processes with the
stdout of the first wired to the stdin of the second and resolves to the
list of per-stage results. -/
def pipeChain (sem : List String → String → Int × String) (c₁ c₂ : List String) : List ProcRes :=
  let r₁ := sem c₁ ""
  let r₂ := sem c₂ r₁.2
  [⟨r₁.1, r₁.2⟩, ⟨r₂.1, r₂.2⟩]

/-- pipe_cmds of the source: chain the two commands and return
`result[-1].returncode`. -/
def pipe_cmds (sem : List String → String → Int × String) (c₁ c₂ : List String) : Int :=
  ((pipeChain sem c₁ c₂).getLastD ⟨0, ""⟩).returncode

/-- metaflac_cmd_args of the source. -/
def metaflac_cmd_args (flac_path : String) : List String :=
  ["metaflac", "--list", "--no-utf8-convert", "--block-type=VORBIS_COMMENT", flac_path]

/-- get_tag_setters of the source: run the metaflac listing subprocess,
parse its stdout (the exit code is ignored). -/
def get_tag_setters (env : Env) (flac_path : String) : List TagSetter × List Ev :=
  (metaflac_stdout_to_setters (env.procSem (metaflac_cmd_args flac_path) "").2,
   [Ev.metaflacRun flac_path])

/-- Stage-1 command line built in convert_file_only. -/
def flac_args (flac_path : String) : List String :=
  ["flac", "--silent", "--stdout", "--decode", flac_path]

/-- Stage-2 command line built in convert_file_only. -/
def lame_args (mp3_path : String) : List String :=
  ["lame", "-V0", "--add-id3v2", "--pad-id3v2", "-", mp3_path]

/-- Exit code of the stage-2 (lame) transcode for one source file. -/
def lameExit (env : Env) (flac_path : String) : Int :=
  pipe_cmds env.procSem (flac_args flac_path) (lame_args (mp3Path flac_path))

/-- convert_file_only of the source: extract tags (result unused), pipe
flac into lame, and on a non-zero exit code best-effort delete the output
(`except: pass`) and raise RuntimeError. -/
def convert_file_only (env : Env) (st : St) (flac_path mp3_path : String) :
    Except PyErr Unit × St × List Ev :=
  let tsr := get_tag_setters env flac_path
  let rc := pipe_cmds env.procSem (flac_args flac_path) (lame_args mp3_path)
  let st₁ := if env.lameCreates mp3_path then addOutput st mp3_path else st
  let tr₁ := tsr.2 ++ [Ev.transcode flac_path mp3_path rc]
  if rc ≠ 0 then
    match osRemove st₁ mp3_path with
    | .ok st₂ => (.error .runtimeError, st₂, tr₁ ++ [Ev.fileRemoved mp3_path])
    | .error _ => (.error .runtimeError, st₁, tr₁)
  else (.ok (), st₁, tr₁)

/-- convert_flac of the source: skip when the output exists; otherwise
gather tag extraction and the transcode, return None on RuntimeError
(other raises propagate), then apply the gathered setters via set_tags and
delete the source file. -/
def convert_flac (env : Env) (st : St) (flac_path : String) :
    Except PyErr (Option String) × St × List Ev :=
  let mp3 := mp3Path flac_path
  if existsPath st mp3 then (.ok none, st, [Ev.skipped mp3])
  else
    let ts := get_tag_setters env flac_path
    match convert_file_only env st flac_path mp3 with
    | (.error .runtimeError, st₁, trB) => (.ok none, st₁, ts.2 ++ trB)
    | (.error e, st₁, trB) => (.error e, st₁, ts.2 ++ trB)
    | (.ok _, st₁, trB) =>
      match set_tags st₁ mp3 ts.1 with
      | .error e => (.error e, st₁, ts.2 ++ trB)
      | .ok st₂ =>
        match osRemove st₂ flac_path with
        | .error e => (.error e, st₂, ts.2 ++ trB ++ [Ev.tagSaved mp3])
        | .ok st₃ =>
          (.ok (some mp3), st₃, ts.2 ++ trB ++ [Ev.tagSaved mp3, Ev.fileRemoved flac_path])

/-- Membership test `f is under root` as os.walk joins paths. -/
def underDir (descend : Bool) (root f : String) : Bool :=
  if descend then (root ++ "/").data.isPrefixOf f.data
  else (root ++ "/").data.isPrefixOf f.data &&
    (f.data.drop (root.data.length + 1)).all (fun c => c ≠ '/')

/-- get_all_matching of the source: a path that itself carries the
extension is yielded directly; otherwise the walk yields every file under
the path whose lowercased name ends with the lowercased extension. -/
def get_all_matching (st : St) (path ext : String) (descend : Bool) : List String :=
  let extL := pyToLower ext
  if pyEndsWith (pyToLower path) extL then [path]
  else st.files.filter (fun f => underDir descend path f && pyEndsWith (pyToLower f) extL)

/-- unzip_serial of the source: derive the destination directory, skip on a
failed name pattern or an existing destination, otherwise makedirs and
extract every member. -/
def unzip_serial (env : Env) (st : St) (path destRoot : String) :
    Except PyErr (Option String) × St × List Ev :=
  match generate_dest_dir_name path with
  | .error e => (.error e, st, [])
  | .ok none => (.ok none, st, [])
  | .ok (some dname) =>
    let dest := destRoot ++ "/" ++ dname
    if existsPath st dest then (.ok none, st, [Ev.unzipSkipped dest])
    else
      let st₁ := { st with dirs := st.dirs ++ [dest] }
      let st₂ := (env.zipContents path).foldl (fun s n => addFile s (dest ++ "/" ++ n)) st₁
      (.ok (some dest), st₂, [Ev.unzipped path dest])

/-- The coordinator's joint await over the per-file pipelines, as scheduled
by this model: pipelines run in fan-out order and the first uncaught child
error aborts the gather. -/
def runPipelines (env : Env) : St → List String → Except PyErr (List (Option String)) × St × List Ev
  | st, [] => (.ok [], st, [])
  | st, f :: fs =>
    match convert_flac env st f with
    | (.error e, st₁, tr) => (.error e, st₁, tr)
    | (.ok r, st₁, tr) =>
      match runPipelines env st₁ fs with
      | (.error e, st₂, tr₂) => (.error e, st₂, tr ++ tr₂)
      | (.ok rs, st₂, tr₂) => (.ok (r :: rs), st₂, tr ++ tr₂)

/-- Inner loop of main_loop over the zips of one root path: unzip each and
collect the flac files discovered under each fresh destination. -/
def processZips (env : Env) (destRoot : String) : St → List String → Except PyErr Unit × St × List String × List Ev
  | st, [] => (.ok (), st, [], [])
  | st, z :: zs =>
    match unzip_serial env st z destRoot with
    | (.error e, st₁, tr) => (.error e, st₁, [], tr)
    | (.ok none, st₁, tr) =>
      match processZips env destRoot st₁ zs with
      | (r, st₂, fl, tr₂) => (r, st₂, fl, tr ++ tr₂)
    | (.ok (some dest), st₁, tr) =>
      let fl₀ := get_all_matching st₁ dest ".flac" true
      match processZips env destRoot st₁ zs with
      | (r, st₂, fl, tr₂) => (r, st₂, fl₀ ++ fl, tr ++ tr₂)

/-- Outer loop of main_loop over the root paths. -/
def processPaths (env : Env) (destRoot : String) (descend : Bool) : St → List String → Except PyErr Unit × St × List String × List Ev
  | st, [] => (.ok (), st, [], [])
  | st, p :: ps =>
    match processZips env destRoot st (get_all_matching st p ".zip" descend) with
    | (.error e, st₁, fl, tr) => (.error e, st₁, fl, tr)
    | (.ok _, st₁, fl, tr) =>
      match processPaths env destRoot descend st₁ ps with
      | (r, st₂, fl₂, tr₂) => (r, st₂, fl ++ fl₂, tr ++ tr₂)

/-- main_loop of the source: discover and unzip archives, schedule one
convert_flac per discovered flac, then gather them all. -/
def main_loop (env : Env) (st : St) (destRoot : String) (paths : List String) (descend : Bool) :
    Except PyErr (List (Option String)) × St × List Ev :=
  match processPaths env destRoot descend st paths with
  | (.error e, st₁, _, tr) => (.error e, st₁, tr)
  | (.ok _, st₁, fl, tr) =>
    match runPipelines env st₁ fl with
    | (r, st₂, tr₂) => (r, st₂, tr ++ tr₂)

/-- check_commands of the source: try to launch each required tool and
raise RuntimeError when any is missing. -/
def check_commands (env : Env) : Except PyErr Unit :=
  if (["flac", "lame", "metaflac"].all env.available) then .ok () else .error .runtimeError

/-- main of the source (argument parsing elided; the name `main` is
reserved by Lean for program entry points): check the tools once, then run
the event loop to completion on main_loop. -/
def mainRun (env : Env) (st : St) (destRoot : String) (paths : List String) (descend : Bool) :
    Except PyErr (List (Option String)) × St × List Ev :=
  match check_commands env with
  | .error e => (.error e, st, [Ev.checkTools])
  | .ok _ =>
    match main_loop env st destRoot paths descend with
    | (r, st₁, tr) => (r, st₁, Ev.checkTools :: tr)

/-- A listing line that yields a setter: it matches the comment regex and
its key is recognised by TAG_MAP. -/
def recognizedLine (l : List Char) : Bool :=
  match lineKV l with
  | some (k, _) => (TAG_MAP k).isSome
  | none => false

/-- Extracted setters of one source file under an oracle. -/
def settersOf (env : Env) (flac_path : String) : List TagSetter :=
  (get_tag_setters env flac_path).1

/-- All TRACKNUMBER values among some setters parse as integers. -/
def trackParses (setters : List TagSetter) : Bool :=
  setters.all (fun s => s.field != .track_num || (pyInt s.raw).isSome)

/-- Lowercased name ends in `.zip`. -/
def pyZipLike (p : String) : Bool := pyEndsWith (pyToLower p) ".zip"

/-- Lowercased name ends in `.flac`. -/
def pyFlacLike (p : String) : Bool := pyEndsWith (pyToLower p) ".flac"

/-- Paths the conversion phase can never delete. -/
def safePath (p : String) : Bool := !pyFlacLike p && !pyEndsWith p ".mp3"

/-- What one run preserves of the state: the zip census of the file list,
every directory, and every file the conversion phase cannot delete. -/
def Pres (s t : St) : Prop :=
  t.files.filter pyZipLike = s.files.filter pyZipLike ∧
  (∀ d ∈ s.dirs, d ∈ t.dirs) ∧
  (∀ f ∈ s.files, safePath f = true → f ∈ t.files)

/-- Every zip the coordinator can process, measured on the initial state. -/
def allZipCandidates (st : St) (paths : List String) (descend : Bool) : List String :=
  paths.foldr (fun p acc => get_all_matching st p ".zip" descend ++ acc) []

/-- Oracle whose metaflac listing carries a non-numeric track number. -/
def c3Env : Env where
  procSem := fun _ _ => (0, "  comment[0]: TRACKNUMBER=seven")
  lameCreates := fun _ => false
  zipContents := fun _ => []
  available := fun _ => true

/-- Oracle under which the single file `a.flac` converts and commits. -/
def commitEnv : Env where
  procSem := fun cmd _ =>
    if cmd = metaflac_cmd_args "a.flac" then
      (0, "  comment[0]: TITLE=T\n  comment[1]: TRACKNUMBER=7")
    else (0, "")
  lameCreates := fun p => p = "a.mp3"
  zipContents := fun _ => []
  available := fun _ => true

/-- Oracle under which every lame invocation exits 1 after creating its
output file. -/
def failEnv : Env where
  procSem := fun cmd _ => if cmd.head? = some "lame" then (1, "") else (0, "")
  lameCreates := fun _ => true
  zipContents := fun _ => []
  available := fun _ => true

/-- Starting state holding the single source file `a.flac`. -/
def stW : St := { files := ["a.flac"], dirs := [], tags := [] }

/-- Oracle where the first file's listing has the non-numeric track
number `seven` and every transcode succeeds. -/
def c4Env : Env where
  procSem := fun cmd _ =>
    if cmd = metaflac_cmd_args "a.flac" then (0, "  comment[0]: TRACKNUMBER=seven")
    else if cmd = metaflac_cmd_args "b.flac" then (0, "  comment[0]: TITLE=B")
    else (0, "")
  lameCreates := fun _ => true
  zipContents := fun _ => []
  available := fun _ => true

/-- Oracle where the first file's transcode fails (lame exits 1) and the
second file converts cleanly. -/
def c4goodEnv : Env where
  procSem := fun cmd _ =>
    if cmd = lame_args "a.mp3" then (1, "")
    else if cmd = metaflac_cmd_args "b.flac" then
      (0, "  comment[0]: TITLE=B\n  comment[1]: TRACKNUMBER=7")
    else (0, "")
  lameCreates := fun _ => true
  zipContents := fun _ => []
  available := fun _ => true

/-- Oracle in which the flac executable cannot be launched. -/
def noToolsEnv : Env where
  procSem := fun _ _ => (0, "")
  lameCreates := fun _ => false
  zipContents := fun _ => []
  available := fun c => c != "flac"

/-- Events of a run that did nothing but skip existing unzip targets. -/
def isUnzipSkipEv : Ev → Bool
  | .unzipSkipped _ => true
  | _ => false

/-- Sanity of one zip archive for idempotence: its extracted members are
not themselves zips (they would be picked up by a second run) and its
destination directory is not named like a source or output file (it would
be deleted by the conversion phase). -/
def zipOk (env : Env) (destRoot z : String) : Bool :=
  match generate_dest_dir_name z with
  | .ok (some dn) =>
    (env.zipContents z).all (fun n => !pyZipLike (destRoot ++ "/" ++ dn ++ "/" ++ n)) &&
    !pyFlacLike (destRoot ++ "/" ++ dn) && !pyEndsWith (destRoot ++ "/" ++ dn) ".mp3"
  | _ => true

/-- Oracle for a full coordinator run: one zip, one flac member. -/
def c5Env : Env where
  procSem := fun cmd _ =>
    if cmd = metaflac_cmd_args "out/Artist/Album/t1.flac" then
      (0, "  comment[0]: TITLE=T\n  comment[1]: TRACKNUMBER=7")
    else (0, "")
  lameCreates := fun p => p = "out/Artist/Album/t1.mp3"
  zipContents := fun _ => ["t1.flac"]
  available := fun _ => true

/-- Starting state of the full coordinator run. -/
def c5St : St := { files := ["root/Artist - Album.zip"], dirs := ["root"], tags := [] }

/-- State after the first coordinator run over c5St. -/
def c5St₂ : St :=
  { files := ["root/Artist - Album.zip", "out/Artist/Album/t1.mp3"],
    dirs := ["root", "out/Artist/Album"],
    tags := [("out/Artist/Album/t1.mp3", { title := some "T", track_num := some (7, none) })] }

/-- A state already holding the derived output of `x.flac`. -/
def stGuard : St := { files := ["x.flac", "x.mp3"], dirs := [], tags := [] }

-- ### Theorems

/-- applySetter can only raise the ValueError of the track-number `int`. -/
theorem applySetter_error_eq {s : TagSetter} {t : Tag} {e : PyErr}
    (h : applySetter s t = .error e) : e = .valueError := by
  cases hs : s.field <;> simp only [applySetter, hs] at h
  case track_num =>
    cases hp : pyInt s.raw <;> simp [hp] at h
    exact h.symm
  all_goals cases h

/-- Effect of one setter on one field of the tag container. -/
theorem applySetter_fieldOf {s : TagSetter} {t t₁ : Tag}
    (h : applySetter s t = .ok t₁) (f : TagField) :
    fieldOf t₁ f = if s.field = f then convVal s.field s.raw else fieldOf t f := by
  cases hs : s.field <;> simp only [applySetter, hs] at h
  case track_num =>
    cases hp : pyInt s.raw <;> simp only [hp] at h
    · cases h
    · cases h
      cases f <;> simp [fieldOf, convVal, hs, hp]
  all_goals
    cases h
    cases f <;> simp [fieldOf, convVal, hs]

/-- Unfolding of the last raw value over a cons. -/
theorem lastRaw_cons (s : TagSetter) (rest : List TagSetter) (f : TagField) :
    lastRaw (s :: rest) f =
      (lastRaw rest f).or (if s.field = f then some s.raw else none) := by
  unfold lastRaw
  rw [List.filter_cons]
  by_cases hq : s.field = f
  · simp only [hq, beq_self_eq_true, if_pos]
    cases hl : (List.filter (fun x => x.field == f) rest).getLast? <;>
      simp [List.getLast?_cons, hl]
  · have : (s.field == f) = false := by simp [hq]
    simp [this, hq]

/-- Applying a setter list that finishes without raising leaves each field
holding the conversion of the last raw value assigned to it. -/
theorem applySetters_lastRaw :
    ∀ (l : List TagSetter) (t t' : Tag), applySetters l t = .ok t' →
      ∀ f, fieldOf t' f = (lastRaw l f).elim (fieldOf t f) (convVal f)
  | [], t, t', h, f => by
    simp only [applySetters] at h
    cases h
    simp [lastRaw]
  | s :: rest, t, t', h, f => by
    simp only [applySetters] at h
    cases ha : applySetter s t <;> rw [ha] at h
    · cases h
    case ok t₁ =>
      have ih := applySetters_lastRaw rest t₁ t' h f
      rw [lastRaw_cons]
      cases hr : lastRaw rest f
      · rw [hr] at ih
        simp only [Option.elim] at ih
        rw [ih, applySetter_fieldOf ha f]
        by_cases hef : s.field = f
        · subst hef
          simp
        · simp [hef]
      · rw [hr] at ih
        simp only [Option.elim] at ih
        simp [ih]

/-- C7: for every listing text, after applying the full extracted setter
sequence to a tag container, each field holds the value converted from the
last occurrence of its key in the listing (and fields with no occurrence
are untouched), so at most one assignment per field is retained. -/
theorem tag_application_last_occurrence_wins
    (output : String) (t t' : Tag)
    (h : applySetters (metaflac_stdout_to_setters output) t = .ok t') :
    ∀ f, fieldOf t' f =
      (lastRaw (metaflac_stdout_to_setters output) f).elim (fieldOf t f) (convVal f) :=
  applySetters_lastRaw (metaflac_stdout_to_setters output) t t' h

/-- Witness for C7: a listing with a duplicated TITLE key; the retained
title is the value of the second (last) occurrence. -/
theorem tag_application_last_occurrence_wins_witness :
    applySetters
      (metaflac_stdout_to_setters
        "  comment[0]: TITLE=Foo\n  comment[1]: TRACKNUMBER=7\n  comment[2]: TITLE=Bar")
      {} = .ok { title := some "Bar", track_num := some (7, none) } ∧
    fieldOf { title := some "Bar", track_num := some (7, none) } .title =
      (lastRaw
        (metaflac_stdout_to_setters
          "  comment[0]: TITLE=Foo\n  comment[1]: TRACKNUMBER=7\n  comment[2]: TITLE=Bar")
        .title).elim (fieldOf {} .title) (convVal .title) :=
  ⟨rfl,
   tag_application_last_occurrence_wins
     "  comment[0]: TITLE=Foo\n  comment[1]: TRACKNUMBER=7\n  comment[2]: TITLE=Bar"
     {} { title := some "Bar", track_num := some (7, none) } rfl .title⟩

/-- A setter list containing a track-number setter whose raw value does not
parse makes the application raise ValueError. -/
theorem applySetters_badTrack :
    ∀ (l : List TagSetter) (t : Tag) (v : String),
      (⟨.track_num, v⟩ : TagSetter) ∈ l → pyInt v = none →
      applySetters l t = .error .valueError
  | [], _, _, hm, _ => by cases hm
  | s :: rest, t, v, hm, hbad => by
    rcases List.mem_cons.mp hm with he | hrest
    · simp only [applySetters, ← he, applySetter, hbad]
    · simp only [applySetters]
      cases ha : applySetter s t
      · rw [applySetter_error_eq ha]
      · exact applySetters_badTrack rest _ v hrest hbad

/-- A setter list whose track-number values all parse applies without
raising. -/
theorem applySetters_ok_of_trackParses :
    ∀ (l : List TagSetter) (t : Tag), trackParses l = true →
      ∃ t', applySetters l t = .ok t'
  | [], t, _ => ⟨t, rfl⟩
  | s :: rest, t, h => by
    rw [trackParses, List.all_cons, Bool.and_eq_true] at h
    obtain ⟨hs, hrest⟩ := h
    have hok : ∃ t₁, applySetter s t = .ok t₁ := by
      cases hf : s.field <;> simp [applySetter, hf]
      rw [hf] at hs
      simp only [bne_self_eq_false, Bool.false_or] at hs
      obtain ⟨n, hn⟩ := Option.isSome_iff_exists.mp hs
      exact ⟨_, by rw [hn]⟩
    obtain ⟨t₁, ht₁⟩ := hok
    obtain ⟨t', ht'⟩ := applySetters_ok_of_trackParses rest t₁ hrest
    exact ⟨t', by simp only [applySetters, ht₁, ht']⟩

/-- C3 counterexample: on a listing whose TRACKNUMBER value is the
non-numeric `seven`, the extraction step (get_tag_setters /
metaflac_stdout_to_setters) does NOT propagate an error: it returns
normally with the raw string captured in the setter, and the ValueError
only arises later, when the setter is applied to a tag container. -/
theorem trackNumber_parse_not_in_extraction :
    settersOf c3Env "x.flac" = [⟨.track_num, "seven"⟩] ∧
    metaflac_stdout_to_setters "  comment[0]: TRACKNUMBER=seven" =
      [⟨.track_num, "seven"⟩] ∧
    applySetters [⟨.track_num, "seven"⟩] {} = .error .valueError := by
  refine ⟨by decide, by decide, rfl⟩

/-- C3 amended: the integer parse of a TRACKNUMBER value is deferred: for
every listing text containing a track-number whose value is not a valid
integer, extraction succeeds with the raw string captured, and the hard
ValueError is raised only when the extracted setters are applied to the
tag container (inside set_tags), aborting the commit of that file. -/
theorem trackNumber_parse_deferred_to_application
    (output : String) (t : Tag) (v : String)
    (hmem : (⟨.track_num, v⟩ : TagSetter) ∈ metaflac_stdout_to_setters output)
    (hbad : pyInt v = none) :
    applySetters (metaflac_stdout_to_setters output) t = .error .valueError :=
  applySetters_badTrack (metaflac_stdout_to_setters output) t v hmem hbad

/-- Witness for the amended C3 at the concrete value `seven`. -/
theorem trackNumber_parse_deferred_to_application_witness :
    applySetters (metaflac_stdout_to_setters "  comment[0]: TRACKNUMBER=seven") {} =
      .error .valueError :=
  trackNumber_parse_deferred_to_application
    "  comment[0]: TRACKNUMBER=seven" {} "seven" (by decide) (by decide)

/-- Length of a filterMap counts the inputs on which the function fires. -/
theorem length_filterMap_eq_countP {α β : Type} (g : α → Option β) :
    ∀ l : List α, (l.filterMap g).length = l.countP (fun a => (g a).isSome)
  | [] => rfl
  | a :: l => by
    rw [List.filterMap_cons, List.countP_cons]
    cases hg : g a <;>
      simp [length_filterMap_eq_countP g l, hg]

/-- The per-line setter of the extractor fires exactly on recognised
lines. -/
theorem recognizedLine_isSome (line : List Char) :
    (match lineKV line with
      | some (k, v) => (TAG_MAP k).map (fun f => (⟨f, v⟩ : TagSetter))
      | none => none).isSome = recognizedLine line := by
  unfold recognizedLine
  cases hkv : lineKV line
  · simp
  case some kv =>
    cases kv with
    | mk k v => cases hk : TAG_MAP k <;> simp [hk]

/-- C6 counterexample: a valid listing in which the recognised key TITLE
occurs twice; the extractor returns one assignment per occurrence (two for
TITLE), not exactly one for the key's first occurrence. -/
theorem extractor_duplicate_key_counterexample :
    metaflac_stdout_to_setters "  comment[0]: TITLE=Foo\n  comment[1]: TITLE=Bar" =
      [⟨.title, "Foo"⟩, ⟨.title, "Bar"⟩] ∧
    ((metaflac_stdout_to_setters "  comment[0]: TITLE=Foo\n  comment[1]: TITLE=Bar").filter
        (fun s => s.field == .title)).length = 2 := by
  refine ⟨by decide, by decide⟩

/-- C6 amended: the extractor returns exactly one TagAssignment per
recognised-key OCCURRENCE (line), and zero for unrecognised keys; the
example listing with TITLE, COMMENT, ARTIST yields exactly the two
assignments title=Foo and artist=Bar. -/
theorem extractor_one_assignment_per_recognized_line (output : String) :
    (metaflac_stdout_to_setters output).length =
      (splitOnChar '\n' output.data).countP recognizedLine ∧
    metaflac_stdout_to_setters
        "    comment[0]: TITLE=Foo\n    comment[1]: COMMENT=ignored\n    comment[2]: ARTIST=Bar" =
      [⟨.title, "Foo"⟩, ⟨.artist, "Bar"⟩] := by
  constructor
  · unfold metaflac_stdout_to_setters
    rw [length_filterMap_eq_countP]
    exact List.countP_congr (fun line _ => by rw [recognizedLine_isSome line])
  · decide

/-- C8: the process chain feeds the stdout of stage 1 to the stdin of
stage 2 and pipe_cmds returns the exit code of the last stage; stage 1's
exit code is not separately enforced, so a failing first stage can be
masked by a succeeding second stage. -/
theorem pipe_cmds_last_stage_authoritative
    (sem : List String → String → Int × String) (c₁ c₂ : List String) :
    pipeChain sem c₁ c₂ =
      [⟨(sem c₁ "").1, (sem c₁ "").2⟩,
       ⟨(sem c₂ (sem c₁ "").2).1, (sem c₂ (sem c₁ "").2).2⟩] ∧
    pipe_cmds sem c₁ c₂ = (sem c₂ ((sem c₁ "").2)).1 ∧
    ∃ (badSem : List String → String → Int × String) (a b : List String),
      (badSem a "").1 ≠ 0 ∧ pipe_cmds badSem a b = 0 := by
  refine ⟨rfl, rfl, ?_⟩
  refine ⟨fun cmd _ => if cmd = ["first"] then (1, "") else (0, ""), ["first"], ["second"], ?_, ?_⟩
  · decide
  · decide

deriving instance DecidableEq for Except

/-- Bridge from a false containment test to non-membership. -/
theorem contains_eq_false {l : List String} {a : String} :
    l.contains a = false ↔ a ∉ l := by
  show l.elem a = false ↔ a ∉ l
  constructor
  · intro h hm
    rw [List.elem_iff.mpr hm] at h
    cases h
  · intro hm
    cases h : l.elem a
    · rfl
    · exact absurd (List.elem_iff.mp h) hm

/-- A false existence test splits into the two non-memberships. -/
theorem existsPath_false {st : St} {p : String} (h : existsPath st p = false) :
    p ∉ st.files ∧ p ∉ st.dirs := by
  unfold existsPath at h
  rcases Bool.or_eq_false_iff.mp h with ⟨h₁, h₂⟩
  exact ⟨contains_eq_false.mp h₁, contains_eq_false.mp h₂⟩

/-- Looking a path up after replaceTag finds the fresh container. -/
theorem lookup_replaceTag :
    ∀ (tags : List (String × Tag)) (p : String) (t : Tag),
      List.lookup p (replaceTag tags p t) = some t
  | [], p, t => by simp [replaceTag, List.lookup]
  | (k, v) :: rest, p, t => by
    unfold replaceTag
    rw [List.filter_cons]
    by_cases hk : k = p
    · have : ((k, v).1 != p) = false := by simp [hk]
      rw [this]
      simp only [Bool.false_eq_true, if_false]
      exact lookup_replaceTag rest p t
    · have : ((k, v).1 != p) = true := by simp [hk]
      rw [this]
      simp only [if_true, List.cons_append, List.lookup_cons]
      have : (p == k) = false := by simp [Ne.symm hk]
      rw [this]
      exact lookup_replaceTag rest p t

/-- Successful-transcode shape of convert_file_only. -/
theorem convert_file_only_ok (env : Env) (st : St) (flac mp3 : String)
    (hrc : pipe_cmds env.procSem (flac_args flac) (lame_args mp3) = 0) :
    convert_file_only env st flac mp3 =
      (.ok (), if env.lameCreates mp3 then addOutput st mp3 else st,
       [Ev.metaflacRun flac, Ev.transcode flac mp3 0]) := by
  unfold convert_file_only get_tag_setters
  simp [hrc]

/-- Failed-transcode shape of convert_file_only: RuntimeError raised, the
output path absent afterwards (deleted when lame had created it, the
FileNotFoundError otherwise swallowed by the bare except), files and dirs
of the state otherwise untouched. -/
theorem convert_file_only_fail (env : Env) (st : St) (flac mp3 : String)
    (hm : mp3 ∉ st.files) (hd : mp3 ∉ st.dirs)
    (hrc : pipe_cmds env.procSem (flac_args flac) (lame_args mp3) ≠ 0) :
    convert_file_only env st flac mp3 =
      (.error .runtimeError,
       if env.lameCreates mp3 then { st with tags := replaceTag st.tags mp3 {} } else st,
       [Ev.metaflacRun flac,
        Ev.transcode flac mp3 (pipe_cmds env.procSem (flac_args flac) (lame_args mp3))] ++
       (if env.lameCreates mp3 then [Ev.fileRemoved mp3] else [])) := by
  have hmc : st.files.contains mp3 = false := contains_eq_false.mpr hm
  have hdc : st.dirs.contains mp3 = false := contains_eq_false.mpr hd
  unfold convert_file_only get_tag_setters
  by_cases hc : env.lameCreates mp3
  · have happ : (st.files ++ [mp3]).contains mp3 = true :=
      List.elem_iff.mpr (List.mem_append_right _ (List.mem_singleton.mpr rfl))
    have herase : (st.files ++ [mp3]).erase mp3 = st.files := by
      rw [List.erase_append_right _ hm]
      simp
    simp only [hc, if_true, hrc, ite_true, addOutput, addFile, hmc, Bool.false_eq_true,
      if_false, osRemove, happ, herase]
    simp [hrc]
  · have hcf : env.lameCreates mp3 = false := by simpa using hc
    simp only [hcf, Bool.false_eq_true, if_false, osRemove, hmc, hdc]
    simp [hrc]

/-- convert_file_only can only raise RuntimeError. -/
theorem convert_file_only_error_eq (env : Env) (st : St) (flac mp3 : String)
    {e : PyErr} {st₁ : St} {trB : List Ev}
    (h : convert_file_only env st flac mp3 = (.error e, st₁, trB)) : e = .runtimeError := by
  simp only [convert_file_only, get_tag_setters] at h
  split at h
  · split at h <;>
    · rw [Prod.mk.injEq] at h
      exact (Except.error.inj h.1).symm
  · rw [Prod.mk.injEq] at h
    exact Except.noConfusion h.1

/-- set_tags on a loadable file reduces to the setter application. -/
theorem set_tags_inv (st : St) (p : String) (setters : List TagSetter)
    (hc : st.files.contains p = true) (t₀ : Tag)
    (hl : List.lookup p st.tags = some t₀) :
    set_tags st p setters =
      match applySetters setters t₀ with
      | .error e => .error e
      | .ok t₁ => .ok { st with tags := replaceTag st.tags p t₁ } := by
  simp only [set_tags, hc, if_true, hl]

/-- osRemove succeeds exactly on present files. -/
theorem osRemove_ok_of_mem {st : St} {p : String} (hmem : p ∈ st.files) :
    osRemove st p = .ok { st with files := st.files.erase p } := by
  simp only [osRemove, List.elem_iff.mpr hmem, if_true]

/-- osRemove on a missing path raises FileNotFoundError. -/
theorem osRemove_notFound {st : St} {p : String} (hf : p ∉ st.files) (hd : p ∉ st.dirs) :
    osRemove st p = .error .fileNotFoundError := by
  simp only [osRemove, contains_eq_false.mpr hf, contains_eq_false.mpr hd,
    Bool.false_eq_true, if_false]

/-- osRemove on a directory raises IsADirectoryError. -/
theorem osRemove_isDir {st : St} {p : String} (hf : p ∉ st.files) (hd : p ∈ st.dirs) :
    osRemove st p = .error .isADirectoryError := by
  simp only [osRemove, contains_eq_false.mpr hf, Bool.false_eq_true, if_false,
    List.elem_iff.mpr hd, if_true]

/-- Files of the state after the lame stage wrote a fresh output. -/
theorem addOutput_files {st : St} {p : String} (hm : p ∉ st.files) :
    (addOutput st p).files = st.files ++ [p] := by
  simp only [addOutput, addFile, contains_eq_false.mpr hm, Bool.false_eq_true, if_false]

/-- Dirs are untouched by addOutput. -/
theorem addOutput_dirs (st : St) (p : String) : (addOutput st p).dirs = st.dirs := by
  unfold addOutput addFile
  split <;> rfl

/-- The stored tag of the fresh output is the placeholder. -/
theorem addOutput_lookup (st : St) (p : String) :
    List.lookup p (addOutput st p).tags = some {} := by
  unfold addOutput
  exact lookup_replaceTag _ _ _

/-- Full case analysis of one convert_flac run: what a commit guarantees
and what any uncaught raise guarantees. -/
theorem convert_flac_cases (env : Env) (st : St) (flac : String)
    (hnd : st.files.Nodup) (hne : flac ≠ mp3Path flac)
    {r : Except PyErr (Option String)} {st' : St} {tr : List Ev}
    (h : convert_flac env st flac = (r, st', tr)) :
    (∀ m, r = .ok (some m) →
      m = mp3Path flac ∧
      pipe_cmds env.procSem (flac_args flac) (lame_args (mp3Path flac)) = 0 ∧
      env.lameCreates (mp3Path flac) = true ∧
      flac ∉ st'.files ∧
      mp3Path flac ∈ st'.files ∧
      (∃ t', applySetters (settersOf env flac) {} = .ok t' ∧
        List.lookup (mp3Path flac) st'.tags = some t') ∧
      tr = [Ev.metaflacRun flac, Ev.metaflacRun flac,
            Ev.transcode flac (mp3Path flac) 0,
            Ev.tagSaved (mp3Path flac), Ev.fileRemoved flac]) ∧
    (∀ e, r = .error e →
      Ev.fileRemoved flac ∉ tr ∧ (flac ∈ st.files → flac ∈ st'.files)) := by
  simp only [convert_flac] at h
  split at h
  · rw [Prod.mk.injEq, Prod.mk.injEq] at h
    obtain ⟨hr, hst, htr⟩ := h
    constructor
    · intro m hm₁
      rw [← hr] at hm₁
      cases hm₁
    · intro e he
      rw [← hr] at he
      cases he
  · rename_i hg
    have hgf : existsPath st (mp3Path flac) = false := by
      cases hq : existsPath st (mp3Path flac)
      · rfl
      · exact absurd hq hg
    obtain ⟨hm, hd⟩ := existsPath_false hgf
    split at h
    · rw [Prod.mk.injEq, Prod.mk.injEq] at h
      obtain ⟨hr, hst, htr⟩ := h
      constructor
      · intro m hm₁
        rw [← hr] at hm₁
        cases hm₁
      · intro e he
        rw [← hr] at he
        cases he
    · rename_i e₁ st₁ trB hnr heq
      have := convert_file_only_error_eq env st flac (mp3Path flac) heq
      subst this
      exact (hnr rfl).elim
    · rename_i u st₁ trB heq
      by_cases hrc : pipe_cmds env.procSem (flac_args flac) (lame_args (mp3Path flac)) = 0
      · rw [convert_file_only_ok env st flac (mp3Path flac) hrc] at heq
        rw [Prod.mk.injEq, Prod.mk.injEq] at heq
        obtain ⟨-, hst₁, htrB⟩ := heq
        subst hst₁
        subst htrB
        by_cases hcr : env.lameCreates (mp3Path flac) = true
        · rw [if_pos hcr] at h
          have hcont : (addOutput st (mp3Path flac)).files.contains (mp3Path flac) = true := by
            rw [show (addOutput st (mp3Path flac)).files.contains (mp3Path flac) =
                (addOutput st (mp3Path flac)).files.elem (mp3Path flac) from rfl]
            rw [List.elem_iff, addOutput_files hm]
            exact List.mem_append_right _ (List.mem_singleton.mpr rfl)
          rw [set_tags_inv _ _ _ hcont {} (addOutput_lookup st (mp3Path flac))] at h
          split at h
          · rename_i e₀ hap
            cases ha : applySetters (get_tag_setters env flac).1 ({} : Tag) with
            | ok tA =>
              rw [ha] at hap
              cases hap
            | error eA =>
              rw [Prod.mk.injEq, Prod.mk.injEq] at h
              obtain ⟨hr, hstq, htr⟩ := h
              constructor
              · intro m hm₁
                rw [← hr] at hm₁
                cases hm₁
              · intro e he
                refine ⟨?_, ?_⟩
                · rw [← htr]
                  simp [get_tag_setters]
                · intro hfm
                  rw [← hstq, addOutput_files hm]
                  exact List.mem_append_left _ hfm
          · rename_i st₂ hap
            cases ha : applySetters (get_tag_setters env flac).1 ({} : Tag) with
            | error eA =>
              rw [ha] at hap
              cases hap
            | ok tA =>
              rw [ha] at hap
              have hst₂ := Except.ok.inj hap
              subst hst₂
              split at h
              · rename_i e₂ hrem
                rw [Prod.mk.injEq, Prod.mk.injEq] at h
                obtain ⟨hr, hstq, htr⟩ := h
                constructor
                · intro m hm₁
                  rw [← hr] at hm₁
                  cases hm₁
                · intro e he
                  refine ⟨?_, ?_⟩
                  · rw [← htr]
                    simp [get_tag_setters, Ne.symm hne]
                  · intro hfm
                    rw [← hstq]
                    show flac ∈ (addOutput st (mp3Path flac)).files
                    rw [addOutput_files hm]
                    exact List.mem_append_left _ hfm
              · rename_i st₃ hrem
                rw [Prod.mk.injEq, Prod.mk.injEq] at h
                obtain ⟨hr, hstq, htr⟩ := h
                have hfm : flac ∈ ({ addOutput st (mp3Path flac) with
                    tags := replaceTag (addOutput st (mp3Path flac)).tags (mp3Path flac) tA } : St).files := by
                  by_contra hfm
                  by_cases hdm : flac ∈ ({ addOutput st (mp3Path flac) with
                      tags := replaceTag (addOutput st (mp3Path flac)).tags (mp3Path flac) tA } : St).dirs
                  · rw [osRemove_isDir hfm hdm] at hrem
                    cases hrem
                  · rw [osRemove_notFound hfm hdm] at hrem
                    cases hrem
                rw [osRemove_ok_of_mem hfm] at hrem
                have hst₃ := (Except.ok.inj hrem).symm
                constructor
                · intro m hm₁
                  rw [← hr] at hm₁
                  have hmval := Option.some.inj (Except.ok.inj hm₁)
                  refine ⟨hmval.symm, hrc, hcr, ?_, ?_, ⟨tA, ha, ?_⟩, ?_⟩
                  · rw [← hstq, hst₃]
                    show flac ∉ List.erase _ flac
                    have hnd₂ : ({ addOutput st (mp3Path flac) with
                        tags := replaceTag (addOutput st (mp3Path flac)).tags (mp3Path flac) tA } : St).files.Nodup := by
                      show (addOutput st (mp3Path flac)).files.Nodup
                      rw [addOutput_files hm]
                      simp [List.nodup_append, hnd, hm]
                    exact hnd₂.not_mem_erase
                  · rw [← hstq, hst₃]
                    show mp3Path flac ∈ List.erase _ flac
                    rw [List.mem_erase_of_ne (Ne.symm hne)]
                    show mp3Path flac ∈ (addOutput st (mp3Path flac)).files
                    rw [addOutput_files hm]
                    exact List.mem_append_right _ (List.mem_singleton.mpr rfl)
                  · rw [← hstq, hst₃]
                    show List.lookup (mp3Path flac)
                      (replaceTag (addOutput st (mp3Path flac)).tags (mp3Path flac) tA) = some tA
                    exact lookup_replaceTag _ _ _
                  · rw [← htr]
                    simp [get_tag_setters]
                · intro e he
                  rw [← hr] at he
                  cases he
        · have hcrf : env.lameCreates (mp3Path flac) = false := by
            cases hq : env.lameCreates (mp3Path flac)
            · rfl
            · exact absurd hq hcr
          rw [hcrf] at h
          simp only [Bool.false_eq_true, if_false] at h
          have hst : set_tags st (mp3Path flac) (get_tag_setters env flac).1 = .error .ioError := by
            simp only [set_tags, contains_eq_false.mpr hm, Bool.false_eq_true, if_false]
          rw [hst] at h
          rw [Prod.mk.injEq, Prod.mk.injEq] at h
          obtain ⟨hr, hstq, htr⟩ := h
          constructor
          · intro m hm₁
            rw [← hr] at hm₁
            cases hm₁
          · intro e he
            refine ⟨?_, fun hc => by rw [← hstq]; exact hc⟩
            rw [← htr]
            simp [get_tag_setters]
      · rw [convert_file_only_fail env st flac (mp3Path flac) hm hd hrc] at heq
        rw [Prod.mk.injEq] at heq
        exact absurd heq.1.symm (by simp)

/-- C1: for every source file entering the pipeline, if the stage-2 (lame)
transcode exits non-zero, convert_flac returns normally with no OutputFile
on disk afterwards (the artifact is deleted best-effort; a deletion
failure — the file was never created — is swallowed by the bare except),
the SourceFile is not deleted, no tag was committed, and the failure is
confined to this file (a plain None return, no raise). -/
theorem stage2_failure_rolls_back (env : Env) (st : St) (flac : String)
    (hg : existsPath st (mp3Path flac) = false)
    (hrc : lameExit env flac ≠ 0)
    (hsrc : flac ∈ st.files) :
    ∃ st' tr, convert_flac env st flac = (.ok none, st', tr) ∧
      mp3Path flac ∉ st'.files ∧
      flac ∈ st'.files ∧
      (∀ p, Ev.tagSaved p ∉ tr) ∧
      Ev.fileRemoved flac ∉ tr ∧
      Ev.transcode flac (mp3Path flac) (lameExit env flac) ∈ tr := by
  obtain ⟨hm, hd⟩ := existsPath_false hg
  have hne : flac ≠ mp3Path flac := fun hh => hm (hh ▸ hsrc)
  have hcfo := convert_file_only_fail env st flac (mp3Path flac) hm hd hrc
  refine ⟨(if env.lameCreates (mp3Path flac) then
            { st with tags := replaceTag st.tags (mp3Path flac) {} } else st),
    [Ev.metaflacRun flac] ++
      ([Ev.metaflacRun flac,
        Ev.transcode flac (mp3Path flac)
          (pipe_cmds env.procSem (flac_args flac) (lame_args (mp3Path flac)))] ++
        (if env.lameCreates (mp3Path flac) then [Ev.fileRemoved (mp3Path flac)] else [])),
    ?_, ?_, ?_, ?_, ?_, ?_⟩
  · show convert_flac env st flac = _
    simp only [convert_flac, hg, Bool.false_eq_true, if_false]
    rw [hcfo]
    rfl
  · cases hcb : env.lameCreates (mp3Path flac) <;> simp [hcb] <;> exact hm
  · cases hcb : env.lameCreates (mp3Path flac) <;> simp [hcb] <;> exact hsrc
  · cases hcb : env.lameCreates (mp3Path flac) <;> simp [hcb, get_tag_setters]
  · cases hcb : env.lameCreates (mp3Path flac) <;> simp [hcb, get_tag_setters, hne]
  · cases hcb : env.lameCreates (mp3Path flac) <;> simp [hcb, get_tag_setters, lameExit]

/-- Witness for C1: lame exits 1 after creating `a.mp3`; the output is
rolled back and `a.flac` survives. -/
theorem stage2_failure_rolls_back_witness :
    existsPath stW (mp3Path "a.flac") = false ∧
    lameExit failEnv "a.flac" ≠ 0 ∧
    (∃ st' tr, convert_flac failEnv stW "a.flac" = (.ok none, st', tr) ∧
      mp3Path "a.flac" ∉ st'.files ∧
      "a.flac" ∈ st'.files ∧
      (∀ p, Ev.tagSaved p ∉ tr) ∧
      Ev.fileRemoved "a.flac" ∉ tr ∧
      Ev.transcode "a.flac" (mp3Path "a.flac") (lameExit failEnv "a.flac") ∈ tr) :=
  ⟨by decide, by decide,
   stage2_failure_rolls_back failEnv stW "a.flac" (by decide) (by decide) (by decide)⟩

/-- C2: whenever convert_flac commits a file, the trace is exactly
metaflac-extraction (twice), then the stage-2 exit 0, then the tag save,
then the source deletion — so the tag commit is strictly after transcode
success and the SourceFile deletion strictly after the tag commit — the
SourceFile is gone, and the OutputFile exists carrying the tags derived
from the extractor applied to the placeholder container; and whenever the
run raises (in particular when applying/saving the tags raises), the
SourceFile is never deleted. -/
theorem commit_ordering_and_rollback_safety (env : Env) (st : St) (flac : String)
    (hnd : st.files.Nodup) (hne : flac ≠ mp3Path flac)
    {r : Except PyErr (Option String)} {st' : St} {tr : List Ev}
    (h : convert_flac env st flac = (r, st', tr)) :
    (∀ m, r = .ok (some m) →
      m = mp3Path flac ∧
      pipe_cmds env.procSem (flac_args flac) (lame_args (mp3Path flac)) = 0 ∧
      flac ∉ st'.files ∧
      mp3Path flac ∈ st'.files ∧
      (∃ t', applySetters (settersOf env flac) {} = .ok t' ∧
        List.lookup (mp3Path flac) st'.tags = some t') ∧
      tr = [Ev.metaflacRun flac, Ev.metaflacRun flac,
            Ev.transcode flac (mp3Path flac) 0,
            Ev.tagSaved (mp3Path flac), Ev.fileRemoved flac]) ∧
    (∀ e, r = .error e →
      Ev.fileRemoved flac ∉ tr ∧ (flac ∈ st.files → flac ∈ st'.files)) := by
  obtain ⟨ha, hb⟩ := convert_flac_cases env st flac hnd hne h
  refine ⟨fun m hm => ?_, hb⟩
  obtain ⟨h₁, h₂, h₃, h₄, h₅, h₆, h₇⟩ := ha m hm
  exact ⟨h₁, h₂, h₄, h₅, h₆, h₇⟩

/-- Witness for C2 at a concrete committing run. -/
theorem commit_ordering_and_rollback_safety_witness :
    ∃ st' tr, convert_flac commitEnv stW "a.flac" = (.ok (some "a.mp3"), st', tr) ∧
      "a.flac" ∉ st'.files ∧
      mp3Path "a.flac" ∈ st'.files ∧
      (∃ t', applySetters (settersOf commitEnv "a.flac") {} = .ok t' ∧
        List.lookup (mp3Path "a.flac") st'.tags = some t') ∧
      tr = [Ev.metaflacRun "a.flac", Ev.metaflacRun "a.flac",
            Ev.transcode "a.flac" (mp3Path "a.flac") 0,
            Ev.tagSaved (mp3Path "a.flac"), Ev.fileRemoved "a.flac"] := by
  have h : convert_flac commitEnv stW "a.flac" =
      (.ok (some "a.mp3"),
       { files := ["a.mp3"], dirs := [],
         tags := [("a.mp3", { title := some "T", track_num := some (7, none) })] },
       [Ev.metaflacRun "a.flac", Ev.metaflacRun "a.flac",
        Ev.transcode "a.flac" "a.mp3" 0, Ev.tagSaved "a.mp3", Ev.fileRemoved "a.flac"]) := by
    rfl
  obtain ⟨ha, -⟩ :=
    commit_ordering_and_rollback_safety commitEnv stW "a.flac" (by decide) (by decide) h
  obtain ⟨-, -, h₃, h₄, h₅, h₆⟩ := ha "a.mp3" rfl
  exact ⟨_, _, h, h₃, h₄, h₅, h₆⟩

/-- C10: for every file that passes the entry guard and commits, the
metaflac extraction subprocess runs exactly twice (once awaited directly
by convert_flac, once inside convert_file_only before the pipe), and the
tags applied at commit are those of convert_flac's own extraction —
convert_file_only returns no setters, so its extraction result cannot
reach the commit and is discarded. -/
theorem extraction_performed_twice (env : Env) (st : St) (flac m : String)
    (st' : St) (tr : List Ev)
    (hnd : st.files.Nodup) (hne : flac ≠ mp3Path flac)
    (h : convert_flac env st flac = (.ok (some m), st', tr)) :
    tr.count (Ev.metaflacRun flac) = 2 ∧
    tr = [Ev.metaflacRun flac, Ev.metaflacRun flac,
          Ev.transcode flac (mp3Path flac) 0,
          Ev.tagSaved (mp3Path flac), Ev.fileRemoved flac] ∧
    (∃ t', applySetters (settersOf env flac) {} = .ok t' ∧
      List.lookup (mp3Path flac) st'.tags = some t') := by
  obtain ⟨ha, -⟩ := convert_flac_cases env st flac hnd hne h
  obtain ⟨-, -, -, -, -, h₆, h₇⟩ := ha m rfl
  refine ⟨?_, h₇, h₆⟩
  rw [h₇]
  simp [List.count_cons]

/-- Witness for C10 at a concrete committing run. -/
theorem extraction_performed_twice_witness :
    ∃ st' tr, convert_flac commitEnv stW "a.flac" = (.ok (some "a.mp3"), st', tr) ∧
      tr.count (Ev.metaflacRun "a.flac") = 2 := by
  have h : convert_flac commitEnv stW "a.flac" =
      (.ok (some "a.mp3"),
       { files := ["a.mp3"], dirs := [],
         tags := [("a.mp3", { title := some "T", track_num := some (7, none) })] },
       [Ev.metaflacRun "a.flac", Ev.metaflacRun "a.flac",
        Ev.transcode "a.flac" "a.mp3" 0, Ev.tagSaved "a.mp3", Ev.fileRemoved "a.flac"]) := by
    rfl
  obtain ⟨hc, -, -⟩ :=
    extraction_performed_twice commitEnv stW "a.flac" "a.mp3" _ _ (by decide) (by decide) h
  exact ⟨_, _, h, hc⟩

/-- splitext splits the path into two halves of itself. -/
theorem splitext_concat (p : String) : (splitext p).1 ++ (splitext p).2 = p := by
  unfold splitext
  cases hd : lastIdxOf '.' p.data <;> simp only [hd]
  · simp
  · rename_i d
    split
    · split
      · show (⟨p.data.take d⟩ : String) ++ ⟨p.data.drop d⟩ = p
        show (⟨p.data.take d ++ p.data.drop d⟩ : String) = p
        rw [List.take_append_drop]
      · simp
    · simp

/-- No string ends in `.flac` and `.mp3` at once. -/
theorem append_flac_ne_append_mp3 (s₁ s₂ : String) : s₁ ++ ".flac" ≠ s₂ ++ ".mp3" := by
  intro h
  have h₂ := congrArg (fun s : String => s.data.getLast?) h
  simp only [String.data_append] at h₂
  rw [List.getLast?_append, List.getLast?_append] at h₂
  rw [show (".flac" : String).data.getLast? = some 'c' from rfl,
      show (".mp3" : String).data.getLast? = some '3' from rfl] at h₂
  rw [Option.or_some, Option.or_some] at h₂
  exact absurd (Option.some.inj h₂) (by decide)

/-- A path with extension `.flac` is never a derived mp3 path. -/
theorem flacExt_ne_mp3Path {f : String} (hext : (splitext f).2 = ".flac") (g : String) :
    f ≠ mp3Path g := by
  have hf : (splitext f).1 ++ ".flac" = f := by rw [← hext]; exact splitext_concat f
  intro hh
  apply append_flac_ne_append_mp3 (splitext f).1 (splitext g).1
  rw [hf]
  exact hh

/-- One pipeline's commit never destroys a sibling's source-or-output
disjunction: the commit only removes its own source (extension `.flac`)
and adds its own output. -/
theorem memDisj_preserved {stf : List String} {flac g : String}
    (hextf : (splitext flac).2 = ".flac") (hextg : (splitext g).2 = ".flac")
    (hg : g ∈ stf ∨ mp3Path g ∈ stf) :
    g ∈ (stf ++ [mp3Path flac]).erase flac ∨
    mp3Path g ∈ (stf ++ [mp3Path flac]).erase flac := by
  rcases hg with hg₁ | hg₂
  · by_cases he : g = flac
    · subst he
      right
      rw [List.mem_erase_of_ne (Ne.symm (flacExt_ne_mp3Path hextg g))]
      exact List.mem_append_right _ (List.mem_singleton.mpr rfl)
    · left
      rw [List.mem_erase_of_ne he]
      exact List.mem_append_left _ hg₁
  · right
    rw [List.mem_erase_of_ne (Ne.symm (flacExt_ne_mp3Path hextf g))]
    exact List.mem_append_left _ hg₂

/-- A pipeline whose listing has parseable track numbers, whose source
path is a real `.flac` name, and whose successful transcode writes its
output, never raises: it skips, fails captively (files unchanged) or
commits (its source swapped for its output). -/
theorem convert_flac_good (env : Env) (st : St) (flac : String)
    (hsome : flac ∈ st.files ∨ mp3Path flac ∈ st.files)
    (hext : (splitext flac).2 = ".flac")
    (htp : trackParses (settersOf env flac) = true)
    (hcre : pipe_cmds env.procSem (flac_args flac) (lame_args (mp3Path flac)) = 0 →
            env.lameCreates (mp3Path flac) = true) :
    ∃ r st' tr, convert_flac env st flac = (.ok r, st', tr) ∧
      (st'.files = st.files ∨ st'.files = (st.files ++ [mp3Path flac]).erase flac) := by
  by_cases hg : existsPath st (mp3Path flac) = true
  · refine ⟨none, st, [Ev.skipped (mp3Path flac)], ?_, Or.inl rfl⟩
    simp only [convert_flac, hg, if_true]
  · have hgf : existsPath st (mp3Path flac) = false := by
      cases hq : existsPath st (mp3Path flac)
      · rfl
      · exact absurd hq hg
    obtain ⟨hm, hd⟩ := existsPath_false hgf
    have hfm : flac ∈ st.files := by
      rcases hsome with h₁ | h₂
      · exact h₁
      · exact absurd h₂ hm
    by_cases hrc : pipe_cmds env.procSem (flac_args flac) (lame_args (mp3Path flac)) = 0
    · have hcr := hcre hrc
      obtain ⟨tA, hap⟩ := applySetters_ok_of_trackParses ((get_tag_setters env flac).1) {} htp
      have hcont : (addOutput st (mp3Path flac)).files.contains (mp3Path flac) = true := by
        rw [show (addOutput st (mp3Path flac)).files.contains (mp3Path flac) =
            (addOutput st (mp3Path flac)).files.elem (mp3Path flac) from rfl]
        rw [List.elem_iff, addOutput_files hm]
        exact List.mem_append_right _ (List.mem_singleton.mpr rfl)
      have hfm₂ : flac ∈ ({ addOutput st (mp3Path flac) with
          tags := replaceTag (addOutput st (mp3Path flac)).tags (mp3Path flac) tA } : St).files := by
        show flac ∈ (addOutput st (mp3Path flac)).files
        rw [addOutput_files hm]
        exact List.mem_append_left _ hfm
      refine ⟨some (mp3Path flac),
        { files := (addOutput st (mp3Path flac)).files.erase flac,
          dirs := (addOutput st (mp3Path flac)).dirs,
          tags := replaceTag (addOutput st (mp3Path flac)).tags (mp3Path flac) tA },
        (get_tag_setters env flac).2 ++ [Ev.metaflacRun flac, Ev.transcode flac (mp3Path flac) 0]
          ++ [Ev.tagSaved (mp3Path flac), Ev.fileRemoved flac], ?_, Or.inr ?_⟩
      · simp only [convert_flac, hgf, Bool.false_eq_true, if_false]
        rw [convert_file_only_ok env st flac (mp3Path flac) hrc, if_pos hcr]
        simp only [set_tags_inv _ _ _ hcont {} (addOutput_lookup st (mp3Path flac)), hap,
          osRemove_ok_of_mem hfm₂]
      · show (addOutput st (mp3Path flac)).files.erase flac = _
        rw [addOutput_files hm]
    · refine ⟨none,
        (if env.lameCreates (mp3Path flac) then
          { st with tags := replaceTag st.tags (mp3Path flac) {} } else st),
        (get_tag_setters env flac).2 ++
          ([Ev.metaflacRun flac,
            Ev.transcode flac (mp3Path flac)
              (pipe_cmds env.procSem (flac_args flac) (lame_args (mp3Path flac)))] ++
           (if env.lameCreates (mp3Path flac) then [Ev.fileRemoved (mp3Path flac)] else [])),
        ?_, Or.inl ?_⟩
      · simp only [convert_flac, hgf, Bool.false_eq_true, if_false]
        rw [convert_file_only_fail env st flac (mp3Path flac) hm hd hrc]
      · cases hcb : env.lameCreates (mp3Path flac) <;> simp [hcb]

/-- C4 counterexample: in a two-file batch where `a.flac` carries the
track-number value `seven` (while `\"7\"` would convert to the assignment
track_num=(7, None)), the ValueError raised at tag application escapes
convert_flac (which catches only RuntimeError) and aborts the
coordinator's joint await: runPipelines ends in an error, not in a
per-file failure. -/
theorem parse_error_aborts_coordinator :
    applySetter ⟨.track_num, "7"⟩ {} = .ok { track_num := some (7, none) } ∧
    settersOf c4Env "a.flac" = [⟨.track_num, "seven"⟩] ∧
    (runPipelines c4Env { files := ["a.flac", "b.flac"], dirs := [], tags := [] }
      ["a.flac", "b.flac"]).1 = .error .valueError := by
  refine ⟨rfl, by decide, by decide⟩

/-- C4 amended: transcode failures are file-scoped — for every batch of
real `.flac` source files whose listings all carry parseable track numbers
(and whose successful transcodes write their output), the coordinator's
joint await completes normally no matter which transcodes fail; but a
ParseError (non-numeric track number, see the counterexample) escapes the
per-file handler and aborts the joint await. -/
theorem transcode_failures_are_file_scoped (env : Env) :
    ∀ (files : List String) (st : St),
      (∀ f ∈ files, (splitext f).2 = ".flac") →
      (∀ f ∈ files, trackParses (settersOf env f) = true) →
      (∀ f ∈ files, pipe_cmds env.procSem (flac_args f) (lame_args (mp3Path f)) = 0 →
        env.lameCreates (mp3Path f) = true) →
      (∀ f ∈ files, f ∈ st.files ∨ mp3Path f ∈ st.files) →
      ∃ L st' tr, runPipelines env st files = (.ok L, st', tr)
  | [], st, _, _, _, _ => ⟨[], st, [], rfl⟩
  | f :: fs, st, hext, htp, hcre, hmem => by
    obtain ⟨r, st₁, tr₁, hcf, hfiles⟩ := convert_flac_good env st f
      (hmem f (List.mem_cons_self f fs)) (hext f (List.mem_cons_self f fs))
      (htp f (List.mem_cons_self f fs)) (hcre f (List.mem_cons_self f fs))
    have hmem₁ : ∀ g ∈ fs, g ∈ st₁.files ∨ mp3Path g ∈ st₁.files := by
      intro g hgm
      have hgold := hmem g (List.mem_cons_of_mem f hgm)
      rcases hfiles with hsame | herase
      · rw [hsame]
        exact hgold
      · rw [herase]
        exact memDisj_preserved (hext f (List.mem_cons_self f fs))
          (hext g (List.mem_cons_of_mem f hgm)) hgold
    obtain ⟨L, st₂, tr₂, hrec⟩ := transcode_failures_are_file_scoped env fs st₁
      (fun g hg => hext g (List.mem_cons_of_mem f hg))
      (fun g hg => htp g (List.mem_cons_of_mem f hg))
      (fun g hg => hcre g (List.mem_cons_of_mem f hg))
      hmem₁
    refine ⟨r :: L, st₂, tr₁ ++ tr₂, ?_⟩
    simp only [runPipelines]
    rw [hcf]
    simp only [hrec]

/-- Witness for the amended C4: `a.flac` fails its transcode, `b.flac`
commits; the joint await reports exactly one failure and one success. -/
theorem transcode_failures_are_file_scoped_witness :
    (runPipelines c4goodEnv { files := ["a.flac", "b.flac"], dirs := [], tags := [] }
      ["a.flac", "b.flac"]).1 = .ok [none, some "b.mp3"] ∧
    (∃ L st' tr, runPipelines c4goodEnv { files := ["a.flac", "b.flac"], dirs := [], tags := [] }
      ["a.flac", "b.flac"] = (.ok L, st', tr)) :=
  ⟨by decide,
   transcode_failures_are_file_scoped c4goodEnv ["a.flac", "b.flac"]
     { files := ["a.flac", "b.flac"], dirs := [], tags := [] }
     (by decide) (by decide) (by decide) (by decide)⟩

/-- No conversion step ever emits the startup tool-check event. -/
theorem checkTools_not_in_convert_file_only (env : Env) (st : St) (flac mp3 : String) :
    Ev.checkTools ∉ (convert_file_only env st flac mp3).2.2 := by
  simp only [convert_file_only, get_tag_setters]
  split
  · split <;> simp
  · simp

/-- convert_flac never emits the startup tool-check event. -/
theorem checkTools_not_in_convert_flac (env : Env) (st : St) (flac : String) :
    Ev.checkTools ∉ (convert_flac env st flac).2.2 := by
  simp only [convert_flac]
  split
  · simp
  · have hcfo := checkTools_not_in_convert_file_only env st flac (mp3Path flac)
    split
    all_goals rename_i heq
    · rw [heq] at hcfo
      simp [get_tag_setters]
      simpa using hcfo
    · rw [heq] at hcfo
      simp [get_tag_setters]
      simpa using hcfo
    · rw [heq] at hcfo
      split
      · simp [get_tag_setters]
        simpa using hcfo
      · split <;>
        · simp [get_tag_setters]
          simpa using hcfo

/-- The pipeline fan-out never emits the tool-check event. -/
theorem checkTools_not_in_runPipelines (env : Env) :
    ∀ (files : List String) (st : St), Ev.checkTools ∉ (runPipelines env st files).2.2
  | [], st => by simp [runPipelines]
  | f :: fs, st => by
    simp only [runPipelines]
    have hcf := checkTools_not_in_convert_flac env st f
    split
    all_goals rename_i heq
    · rw [heq] at hcf
      simpa using hcf
    · rw [heq] at hcf
      simp only at hcf
      rename_i st₁ tr
      have hrec := checkTools_not_in_runPipelines env fs st₁
      split
      all_goals rename_i heq₂
      · rw [heq₂] at hrec
        simp only at hrec
        simp [hcf, hrec]
      · rw [heq₂] at hrec
        simp only at hrec
        simp [hcf, hrec]

/-- unzip_serial never emits the tool-check event. -/
theorem checkTools_not_in_unzip_serial (env : Env) (st : St) (path destRoot : String) :
    Ev.checkTools ∉ (unzip_serial env st path destRoot).2.2 := by
  simp only [unzip_serial]
  split
  · simp
  · simp
  · split <;> simp

/-- The zip loop never emits the tool-check event. -/
theorem checkTools_not_in_processZips (env : Env) (destRoot : String) :
    ∀ (zs : List String) (st : St), Ev.checkTools ∉ (processZips env destRoot st zs).2.2.2
  | [], st => by simp [processZips]
  | z :: zs, st => by
    simp only [processZips]
    have hu := checkTools_not_in_unzip_serial env st z destRoot
    split
    all_goals rename_i heq
    · rw [heq] at hu
      simpa using hu
    · rw [heq] at hu
      simp only at hu
      rename_i st₁ tr
      have hrec := checkTools_not_in_processZips env destRoot zs st₁
      simp [hu, hrec]
    · rw [heq] at hu
      simp only at hu
      rename_i st₁ tr
      have hrec := checkTools_not_in_processZips env destRoot zs st₁
      simp [hu, hrec]

/-- The path loop never emits the tool-check event. -/
theorem checkTools_not_in_processPaths (env : Env) (destRoot : String) (descend : Bool) :
    ∀ (ps : List String) (st : St), Ev.checkTools ∉ (processPaths env destRoot descend st ps).2.2.2
  | [], st => by simp [processPaths]
  | p :: ps, st => by
    simp only [processPaths]
    have hz := checkTools_not_in_processZips env destRoot (get_all_matching st p ".zip" descend) st
    split
    all_goals rename_i heq
    · rw [heq] at hz
      simpa using hz
    · rw [heq] at hz
      simp only at hz
      rename_i st₁ fl tr
      have hrec := checkTools_not_in_processPaths env destRoot descend ps st₁
      simp [hz, hrec]

/-- main_loop never emits the tool-check event. -/
theorem checkTools_not_in_main_loop (env : Env) (st : St) (destRoot : String)
    (paths : List String) (descend : Bool) :
    Ev.checkTools ∉ (main_loop env st destRoot paths descend).2.2 := by
  simp only [main_loop]
  have hp := checkTools_not_in_processPaths env destRoot descend paths st
  split
  all_goals rename_i heq
  · rw [heq] at hp
    simpa using hp
  · rw [heq] at hp
    simp only at hp
    rename_i st₁ fl tr
    have hr := checkTools_not_in_runPipelines env fl st₁
    simp [hp, hr]

/-- C9: the availability check of the three required tools runs exactly
once per run — the rest of the run never emits the check event, whatever
the inputs — and when any of flac, lame or metaflac cannot be launched,
the whole run aborts with the fatal RuntimeError before any conversion
work: the state is untouched and the trace holds nothing but the check. -/
theorem check_commands_once_and_fatal (env : Env) (st : St) (destRoot : String)
    (paths : List String) (descend : Bool) :
    (mainRun env st destRoot paths descend).2.2.count Ev.checkTools = 1 ∧
    ((env.available "flac" = false ∨ env.available "lame" = false ∨
        env.available "metaflac" = false) →
      mainRun env st destRoot paths descend = (.error .runtimeError, st, [Ev.checkTools])) := by
  constructor
  · simp only [mainRun]
    split
    · simp
    · have hml := checkTools_not_in_main_loop env st destRoot paths descend
      simp [List.count_cons, List.count_eq_zero.mpr hml]
  · intro hmiss
    have hcc : check_commands env = .error .runtimeError := by
      rcases hmiss with h₁ | h₂ | h₃
      · simp [check_commands, h₁]
      · simp [check_commands, h₂]
      · simp [check_commands, h₃]
    simp only [mainRun, hcc]

/-- Witness for C9: flac missing makes the run abort at the single check. -/
theorem check_commands_once_and_fatal_witness :
    (mainRun noToolsEnv stW "out" ["root"] true).2.2.count Ev.checkTools = 1 ∧
    mainRun noToolsEnv stW "out" ["root"] true = (.error .runtimeError, stW, [Ev.checkTools]) :=
  ⟨(check_commands_once_and_fatal noToolsEnv stW "out" ["root"] true).1,
   (check_commands_once_and_fatal noToolsEnv stW "out" ["root"] true).2 (Or.inl (by decide))⟩

/-- Suffixes of a common list compare by length. -/
theorem suffix_of_suffix_length_le {t₁ t₂ l : List Char}
    (h₁ : t₁ <:+ l) (h₂ : t₂ <:+ l) (hl : t₁.length ≤ t₂.length) : t₁ <:+ t₂ := by
  rw [← List.reverse_prefix] at h₁ h₂ ⊢
  exact List.prefix_of_prefix_length_le h₁ h₂ (by simpa using hl)

/-- Equal-length suffixes of a common list are equal. -/
theorem suffix_eq_of_length_eq {t₁ t₂ l : List Char}
    (h₁ : t₁ <:+ l) (h₂ : t₂ <:+ l) (hl : t₁.length = t₂.length) : t₁ = t₂ := by
  obtain ⟨u₁, e₁⟩ := h₁
  obtain ⟨u₂, e₂⟩ := h₂
  exact (List.append_inj' (e₁.trans e₂.symm) hl).2

/-- The boolean endswith test in terms of list suffixes. -/
theorem pyEndsWith_iff {s t : String} : pyEndsWith s t = true ↔ t.data <:+ s.data := by
  unfold pyEndsWith
  exact List.isSuffixOf_iff_suffix

/-- Character data of the lowercased string. -/
theorem pyToLower_data (s : String) : (pyToLower s).data = s.data.map Char.toLower := rfl

/-- A derived mp3 path always ends in `.mp3`. -/
theorem mp3Path_endsWith (f : String) : pyEndsWith (mp3Path f) ".mp3" = true :=
  pyEndsWith_iff.mpr (by
    rw [mp3Path, String.data_append]
    exact List.suffix_append _ _)

/-- A path ending in `.mp3` is not zip-like. -/
theorem endsWith_mp3_not_zipLike {p : String} (h : pyEndsWith p ".mp3" = true) :
    pyZipLike p = false := by
  cases hq : pyZipLike p
  · rfl
  · exfalso
    have h₁ : (".mp3" : String).data <:+ (pyToLower p).data := by
      have hsuf := pyEndsWith_iff.mp h
      have hm := List.IsSuffix.map Char.toLower hsuf
      rw [pyToLower_data]
      have hfix : (".mp3" : String).data.map Char.toLower = (".mp3" : String).data := by decide
      rw [← hfix]
      exact hm
    have h₂ : (".zip" : String).data <:+ (pyToLower p).data := pyEndsWith_iff.mp hq
    have := suffix_eq_of_length_eq h₁ h₂ (by decide)
    exact absurd this (by decide)

/-- A flac-like path is not zip-like. -/
theorem flacLike_not_zipLike {p : String} (h : pyFlacLike p = true) : pyZipLike p = false := by
  cases hq : pyZipLike p
  · rfl
  · exfalso
    have h₁ : (".flac" : String).data <:+ (pyToLower p).data := pyEndsWith_iff.mp h
    have h₂ : (".zip" : String).data <:+ (pyToLower p).data := pyEndsWith_iff.mp hq
    have h₃ := suffix_of_suffix_length_le h₂ h₁ (by decide)
    rw [← List.isSuffixOf_iff_suffix] at h₃
    exact absurd h₃ (by decide)

/-- Pres is reflexive. -/
theorem Pres_refl (s : St) : Pres s s := ⟨rfl, fun _ hd => hd, fun _ hf _ => hf⟩

/-- Pres is transitive. -/
theorem Pres_trans {a b c : St} (h₁ : Pres a b) (h₂ : Pres b c) : Pres a c :=
  ⟨h₂.1.trans h₁.1, fun d hd => h₂.2.1 d (h₁.2.1 d hd), fun f hf hs => h₂.2.2 f (h₁.2.2 f hf hs) hs⟩

/-- Erasing an element the filter rejects leaves the filter unchanged. -/
theorem filter_erase_of_neg {p : String → Bool} {a : String} (ha : p a = false) :
    ∀ l : List String, (l.erase a).filter p = l.filter p
  | [] => rfl
  | b :: t => by
    by_cases hb : b = a
    · subst hb
      rw [List.erase_cons_head]
      rw [List.filter_cons, ha]
      simp
    · rw [List.erase_cons_tail (by simpa using hb)]
      rw [List.filter_cons, List.filter_cons, filter_erase_of_neg ha t]

/-- A deletable path never removes a protected file. -/
theorem mem_erase_of_safe {l : List String} {f a : String}
    (hf : f ∈ l) (hsf : safePath f = true) (hsa : safePath a = false) : f ∈ l.erase a := by
  have hne : f ≠ a := by
    intro hh
    rw [hh, hsa] at hsf
    cases hsf
  exact (List.mem_erase_of_ne hne).mpr hf

/-- Adding a non-zip file preserves the run invariant. -/
theorem pres_addFile {st : St} {p : String} (hz : pyZipLike p = false) :
    Pres st (addFile st p) := by
  unfold addFile
  split
  · exact Pres_refl st
  · refine ⟨?_, fun d hd => hd, fun f hf _ => List.mem_append_left _ hf⟩
    show (st.files ++ [p]).filter pyZipLike = st.files.filter pyZipLike
    rw [List.filter_append]
    simp [List.filter_cons, hz]

/-- Adding finitely many non-zip files preserves the run invariant. -/
theorem pres_addFiles (g : String → String) :
    ∀ (ns : List String) (st : St), (∀ n ∈ ns, pyZipLike (g n) = false) →
      Pres st (ns.foldl (fun s n => addFile s (g n)) st)
  | [], st, _ => Pres_refl st
  | n :: ns, st, h => by
    simp only [List.foldl_cons]
    exact Pres_trans (pres_addFile (h n (List.mem_cons_self n ns)))
      (pres_addFiles g ns (addFile st (g n)) (fun m hm => h m (List.mem_cons_of_mem n hm)))

/-- Erasing a non-zip deletable file preserves the run invariant. -/
theorem pres_erase_files {st : St} {a : String}
    (hz : pyZipLike a = false) (hs : safePath a = false) :
    Pres st { st with files := st.files.erase a } :=
  ⟨filter_erase_of_neg hz st.files, fun _ hd => hd, fun f hf hsf => mem_erase_of_safe hf hsf hs⟩

/-- A tags-only update preserves the run invariant. -/
theorem pres_tags {st : St} {tg : List (String × Tag)} :
    Pres st { st with tags := tg } := ⟨rfl, fun _ hd => hd, fun _ hf _ => hf⟩

/-- Ok-shape inversion of osRemove. -/
theorem osRemove_ok_inv {st : St} {p : String} {st' : St} (h : osRemove st p = .ok st') :
    st' = { st with files := st.files.erase p } := by
  simp only [osRemove] at h
  split at h
  · exact (Except.ok.inj h).symm
  · split at h <;> cases h

/-- set_tags never touches files or dirs. -/
theorem set_tags_ok_state {st : St} {p : String} {setters : List TagSetter} {st' : St}
    (h : set_tags st p setters = .ok st') : st'.files = st.files ∧ st'.dirs = st.dirs := by
  simp only [set_tags] at h
  split at h
  · split at h
    · cases h
    · split at h
      · cases h
      · obtain rfl := Except.ok.inj h
        exact ⟨rfl, rfl⟩
  · cases h

/-- unzip_serial preserves the run invariant when the archive is sane. -/
theorem pres_unzip_serial (env : Env) (st : St) (z destRoot : String)
    (hok : zipOk env destRoot z = true) :
    Pres st (unzip_serial env st z destRoot).2.1 := by
  simp only [unzip_serial]
  split
  · exact Pres_refl st
  · exact Pres_refl st
  · rename_i dn heq
    split
    · exact Pres_refl st
    · have hns : ∀ n ∈ env.zipContents z,
          pyZipLike (destRoot ++ "/" ++ dn ++ "/" ++ n) = false := by
        simp only [zipOk, heq, Bool.and_eq_true] at hok
        intro n hn
        have := List.all_eq_true.mp hok.1.1 n hn
        simpa using this
      have h₁ : Pres st { st with dirs := st.dirs ++ [destRoot ++ "/" ++ dn] } :=
        ⟨rfl, fun d hd => List.mem_append_left _ hd, fun _ hf _ => hf⟩
      exact Pres_trans h₁
        (pres_addFiles (fun n => destRoot ++ "/" ++ dn ++ "/" ++ n) (env.zipContents z) _ hns)

/-- convert_file_only preserves the run invariant. -/
theorem pres_convert_file_only (env : Env) (st : St) (flac mp3 : String)
    (hm3 : pyEndsWith mp3 ".mp3" = true) :
    Pres st (convert_file_only env st flac mp3).2.1 := by
  have hz := endsWith_mp3_not_zipLike hm3
  have hs : safePath mp3 = false := by simp [safePath, hm3]
  have h₁ : Pres st (if env.lameCreates mp3 then addOutput st mp3 else st) := by
    split
    · exact Pres_trans (pres_addFile hz) pres_tags
    · exact Pres_refl st
  simp only [convert_file_only]
  split
  · split
    · rename_i st₂ hrem
      rw [osRemove_ok_inv hrem]
      exact Pres_trans h₁ (pres_erase_files hz hs)
    · exact h₁
  · exact h₁

/-- convert_flac preserves the run invariant on any flac-like source. -/
theorem pres_convert_flac (env : Env) (st : St) (flac : String)
    (hfl : pyFlacLike flac = true) :
    Pres st (convert_flac env st flac).2.1 := by
  have hz := flacLike_not_zipLike hfl
  have hs : safePath flac = false := by simp [safePath, hfl]
  have hcfoP := pres_convert_file_only env st flac (mp3Path flac) (mp3Path_endsWith flac)
  simp only [convert_flac]
  split
  · exact Pres_refl st
  · split
    all_goals rename_i heq
    · rw [heq] at hcfoP
      exact hcfoP
    · rw [heq] at hcfoP
      exact hcfoP
    · rw [heq] at hcfoP
      simp only at hcfoP
      rename_i st₁ trB
      split
      · exact hcfoP
      · rename_i st₂ hst
        obtain ⟨hf₂, hd₂⟩ := set_tags_ok_state hst
        have h₂ : Pres st st₂ := by
          refine Pres_trans hcfoP ⟨?_, ?_, ?_⟩
          · rw [hf₂]
          · intro d hd
            rw [hd₂]
            exact hd
          · intro f hf _
            rw [hf₂]
            exact hf
        split
        · exact h₂
        · rename_i st₃ hrem
          rw [osRemove_ok_inv hrem]
          exact Pres_trans h₂ (pres_erase_files hz hs)

/-- Every file the flac discovery yields is flac-like. -/
theorem get_all_matching_flacLike (st : St) (d : String) :
    ∀ f ∈ get_all_matching st d ".flac" true, pyFlacLike f = true := by
  intro f hf
  simp only [get_all_matching] at hf
  rw [show pyToLower ".flac" = ".flac" from rfl] at hf
  split at hf
  · rename_i hq
    rw [List.mem_singleton.mp hf]
    exact hq
  · have hmf := List.mem_filter.mp hf
    have hmf₂ := hmf.2
    rw [Bool.and_eq_true] at hmf₂
    exact hmf₂.2

/-- The zip discovery only depends on the zip census of the file list. -/
theorem get_all_matching_eq_of_filterEq {s t : St}
    (hz : t.files.filter pyZipLike = s.files.filter pyZipLike) (p : String) (descend : Bool) :
    get_all_matching t p ".zip" descend = get_all_matching s p ".zip" descend := by
  simp only [get_all_matching]
  rw [show pyToLower ".zip" = ".zip" from rfl]
  split
  · rfl
  · show t.files.filter (fun f => underDir descend p f && pyZipLike f) =
      s.files.filter (fun f => underDir descend p f && pyZipLike f)
    rw [← List.filter_filter, ← List.filter_filter, hz]

/-- Discovered zips of one root path sit inside the candidate set. -/
theorem mem_allZipCandidates (st : St) (descend : Bool) :
    ∀ (paths : List String) (p z : String), p ∈ paths →
      z ∈ get_all_matching st p ".zip" descend →
      z ∈ allZipCandidates st paths descend
  | [], p, _, hp, _ => absurd hp (List.not_mem_nil p)
  | q :: qs, p, z, hp, hz => by
    simp only [allZipCandidates, List.foldr_cons]
    rcases List.mem_cons.mp hp with he | hm
    · rw [← he]
      exact List.mem_append_left _ hz
    · exact List.mem_append_right _ (mem_allZipCandidates st descend qs p z hm hz)

/-- Extraction only adds files, never directories. -/
theorem foldl_addFile_dirs (g : String → String) :
    ∀ (ns : List String) (st : St),
      (ns.foldl (fun s n => addFile s (g n)) st).dirs = st.dirs
  | [], _ => rfl
  | n :: ns, st => by
    simp only [List.foldl_cons]
    rw [foldl_addFile_dirs g ns]
    unfold addFile
    split <;> rfl

/-- The zip loop preserves the run invariant and discovers only flac-like
files. -/
theorem processZips_pres (env : Env) (destRoot : String) :
    ∀ (zs : List String) (st : St), (∀ z ∈ zs, zipOk env destRoot z = true) →
      Pres st (processZips env destRoot st zs).2.1 ∧
      (∀ f ∈ (processZips env destRoot st zs).2.2.1, pyFlacLike f = true)
  | [], st, _ => ⟨Pres_refl st, by simp [processZips]⟩
  | z :: zs, st, h => by
    have hu := pres_unzip_serial env st z destRoot (h z (List.mem_cons_self z zs))
    simp only [processZips]
    split
    all_goals rename_i heq
    · rw [heq] at hu
      exact ⟨hu, by simp⟩
    · rw [heq] at hu
      simp only at hu
      rename_i st₁ tr
      obtain ⟨hrec, hfl⟩ :=
        processZips_pres env destRoot zs st₁ (fun w hw => h w (List.mem_cons_of_mem z hw))
      exact ⟨Pres_trans hu hrec, fun f hf => hfl f (by simpa using hf)⟩
    · rw [heq] at hu
      simp only at hu
      rename_i dest st₁ tr
      obtain ⟨hrec, hfl⟩ :=
        processZips_pres env destRoot zs st₁ (fun w hw => h w (List.mem_cons_of_mem z hw))
      refine ⟨Pres_trans hu hrec, ?_⟩
      intro f hf
      rcases List.mem_append.mp (by simpa using hf) with h₁ | h₂
      · exact get_all_matching_flacLike st₁ dest f h₁
      · exact hfl f h₂

/-- The pipeline fan-out preserves the run invariant. -/
theorem pres_runPipelines (env : Env) :
    ∀ (fls : List String) (st : St), (∀ f ∈ fls, pyFlacLike f = true) →
      Pres st (runPipelines env st fls).2.1
  | [], st, _ => Pres_refl st
  | f :: fs, st, h => by
    have hc := pres_convert_flac env st f (h f (List.mem_cons_self f fs))
    simp only [runPipelines]
    split
    all_goals rename_i heq
    · rw [heq] at hc
      exact hc
    · rw [heq] at hc
      simp only at hc
      rename_i st₁ tr
      have hrec := pres_runPipelines env fs st₁ (fun g hg => h g (List.mem_cons_of_mem f hg))
      split
      all_goals rename_i heq₂
      · rw [heq₂] at hrec
        simp only at hrec
        exact Pres_trans hc hrec
      · rw [heq₂] at hrec
        simp only at hrec
        exact Pres_trans hc hrec

/-- The path loop preserves the run invariant and discovers only flac-like
files, provided every candidate zip (measured against a census-equal base
state) is sane. -/
theorem processPaths_pres (env : Env) (destRoot : String) (descend : Bool) :
    ∀ (ps : List String) (st base : St),
      base.files.filter pyZipLike = st.files.filter pyZipLike →
      (∀ p ∈ ps, ∀ z ∈ get_all_matching base p ".zip" descend, zipOk env destRoot z = true) →
      Pres st (processPaths env destRoot descend st ps).2.1 ∧
      (∀ f ∈ (processPaths env destRoot descend st ps).2.2.1, pyFlacLike f = true)
  | [], st, _, _, _ => ⟨Pres_refl st, by simp [processPaths]⟩
  | p :: ps, st, base, hbase, hg => by
    have hzs : get_all_matching st p ".zip" descend = get_all_matching base p ".zip" descend :=
      get_all_matching_eq_of_filterEq hbase.symm p descend
    have hguards : ∀ z ∈ get_all_matching st p ".zip" descend, zipOk env destRoot z = true := by
      rw [hzs]
      exact hg p (List.mem_cons_self p ps)
    obtain ⟨hz₁, hfl₁⟩ :=
      processZips_pres env destRoot (get_all_matching st p ".zip" descend) st hguards
    simp only [processPaths]
    split
    all_goals rename_i heq
    · rw [heq] at hz₁ hfl₁
      simp only at hz₁ hfl₁
      exact ⟨hz₁, fun f hf => hfl₁ f (by simpa using hf)⟩
    · rw [heq] at hz₁ hfl₁
      simp only at hz₁ hfl₁
      rename_i st₁ fl tr
      have hbase₂ : base.files.filter pyZipLike = st₁.files.filter pyZipLike :=
        hbase.trans hz₁.1.symm
      obtain ⟨hrec, hflrec⟩ := processPaths_pres env destRoot descend ps st₁ base hbase₂
        (fun q hq => hg q (List.mem_cons_of_mem p hq))
      refine ⟨Pres_trans hz₁ hrec, ?_⟩
      intro f hf
      rcases List.mem_append.mp (by simpa using hf) with h₁ | h₂
      · exact hfl₁ f h₁
      · exact hflrec f h₂

/-- A zip processed successfully once is skipped by a later run: its
destination (or its name-pattern rejection) persists. -/
theorem unzip_serial_idem (env : Env) (destRoot z : String) {T T' : St}
    {o : Option String} {tr : List Ev}
    (h1 : unzip_serial env T z destRoot = (.ok o, T', tr))
    (hok : zipOk env destRoot z = true)
    {s₂ : St} (hT : Pres T s₂) (hT' : Pres T' s₂) :
    ∃ tr₂, unzip_serial env s₂ z destRoot = (.ok none, s₂, tr₂) ∧
      tr₂.all isUnzipSkipEv = true := by
  simp only [unzip_serial] at h1 ⊢
  split at h1
  · rw [Prod.mk.injEq] at h1
    cases h1.1
  · exact ⟨[], rfl, rfl⟩
  · rename_i dn heq
    have hsafe : safePath (destRoot ++ "/" ++ dn) = true := by
      simp only [zipOk, heq, Bool.and_eq_true] at hok
      have hfl : pyFlacLike (destRoot ++ "/" ++ dn) = false := by simpa using hok.1.2
      have hmp : pyEndsWith (destRoot ++ "/" ++ dn) ".mp3" = false := by simpa using hok.2
      simp [safePath, hfl, hmp]
    split at h1
    · rename_i hex
      rw [Prod.mk.injEq, Prod.mk.injEq] at h1
      obtain ⟨-, hTeq, -⟩ := h1
      have hex₂ : existsPath s₂ (destRoot ++ "/" ++ dn) = true := by
        simp only [existsPath, Bool.or_eq_true] at hex
        rcases hex with hf | hd
        · have hmem : (destRoot ++ "/" ++ dn) ∈ T.files := List.elem_iff.mp hf
          have hmem₂ : (destRoot ++ "/" ++ dn) ∈ s₂.files := hT.2.2 _ hmem hsafe
          simp only [existsPath, Bool.or_eq_true]
          exact Or.inl (List.elem_iff.mpr hmem₂)
        · have hmem : (destRoot ++ "/" ++ dn) ∈ T.dirs := List.elem_iff.mp hd
          have hmem₂ : (destRoot ++ "/" ++ dn) ∈ s₂.dirs := hT.2.1 _ hmem
          simp only [existsPath, Bool.or_eq_true]
          exact Or.inr (List.elem_iff.mpr hmem₂)
      refine ⟨[Ev.unzipSkipped (destRoot ++ "/" ++ dn)], ?_, rfl⟩
      simp only [hex₂, if_true]
    · rename_i hex
      rw [Prod.mk.injEq, Prod.mk.injEq] at h1
      obtain ⟨-, hTeq, -⟩ := h1
      have hdm : (destRoot ++ "/" ++ dn) ∈ T'.dirs := by
        rw [← hTeq]
        rw [foldl_addFile_dirs (fun n => destRoot ++ "/" ++ dn ++ "/" ++ n) (env.zipContents z)]
        exact List.mem_append_right _ (List.mem_singleton.mpr rfl)
      have hex₂ : existsPath s₂ (destRoot ++ "/" ++ dn) = true := by
        have hmem₂ : (destRoot ++ "/" ++ dn) ∈ s₂.dirs := hT'.2.1 _ hdm
        simp only [existsPath, Bool.or_eq_true]
        exact Or.inr (List.elem_iff.mpr hmem₂)
      refine ⟨[Ev.unzipSkipped (destRoot ++ "/" ++ dn)], ?_, rfl⟩
      simp only [hex₂, if_true]

/-- A zip list processed successfully once is entirely skipped by a later
run whose state extends the first run's effects. -/
theorem processZips_idem (env : Env) (destRoot : String) :
    ∀ (zs : List String) (T T' : St) (fl : List String) (tr : List Ev),
      processZips env destRoot T zs = (.ok (), T', fl, tr) →
      (∀ z ∈ zs, zipOk env destRoot z = true) →
      ∀ s₂ : St, Pres T' s₂ →
      ∃ tr₂, processZips env destRoot s₂ zs = (.ok (), s₂, [], tr₂) ∧
        tr₂.all isUnzipSkipEv = true
  | [], T, T', fl, tr, h1, _, s₂, hP => by
    simp only [processZips] at h1 ⊢
    exact ⟨[], rfl, rfl⟩
  | z :: zs, T, T', fl, tr, h1, hg, s₂, hP => by
    simp only [processZips] at h1 ⊢
    split at h1
    · rw [Prod.mk.injEq] at h1
      cases h1.1
    · rename_i st₁ tr₀ heq1
      rcases hzs : processZips env destRoot st₁ zs with ⟨r', st₂x, fl', tr₂'⟩
      rw [hzs] at h1
      simp only at h1
      rw [Prod.mk.injEq, Prod.mk.injEq, Prod.mk.injEq] at h1
      obtain ⟨hr', hst₂x, hfl', htr'⟩ := h1
      subst hr'
      subst hst₂x
      have hPres_u : Pres T st₁ := by
        have := pres_unzip_serial env T z destRoot (hg z (List.mem_cons_self z zs))
        rw [heq1] at this
        exact this
      have hPres_rest : Pres st₁ st₂x := by
        have := (processZips_pres env destRoot zs st₁
          (fun w hw => hg w (List.mem_cons_of_mem z hw))).1
        rw [hzs] at this
        exact this
      obtain ⟨trR, hR, hallR⟩ := processZips_idem env destRoot zs st₁ st₂x fl' tr₂' hzs
        (fun w hw => hg w (List.mem_cons_of_mem z hw)) s₂ hP
      obtain ⟨trS, hS, hallS⟩ := unzip_serial_idem env destRoot z heq1
        (hg z (List.mem_cons_self z zs))
        (Pres_trans hPres_u (Pres_trans hPres_rest hP))
        (Pres_trans hPres_rest hP)
      refine ⟨trS ++ trR, ?_, ?_⟩
      · rw [hS]
        simp [hR]
      · simp [List.all_append, hallS, hallR]
    · rename_i dest st₁ tr₀ heq1
      rcases hzs : processZips env destRoot st₁ zs with ⟨r', st₂x, fl', tr₂'⟩
      rw [hzs] at h1
      simp only at h1
      rw [Prod.mk.injEq, Prod.mk.injEq, Prod.mk.injEq] at h1
      obtain ⟨hr', hst₂x, hfl', htr'⟩ := h1
      subst hr'
      subst hst₂x
      have hPres_u : Pres T st₁ := by
        have := pres_unzip_serial env T z destRoot (hg z (List.mem_cons_self z zs))
        rw [heq1] at this
        exact this
      have hPres_rest : Pres st₁ st₂x := by
        have := (processZips_pres env destRoot zs st₁
          (fun w hw => hg w (List.mem_cons_of_mem z hw))).1
        rw [hzs] at this
        exact this
      obtain ⟨trR, hR, hallR⟩ := processZips_idem env destRoot zs st₁ st₂x fl' tr₂' hzs
        (fun w hw => hg w (List.mem_cons_of_mem z hw)) s₂ hP
      obtain ⟨trS, hS, hallS⟩ := unzip_serial_idem env destRoot z heq1
        (hg z (List.mem_cons_self z zs))
        (Pres_trans hPres_u (Pres_trans hPres_rest hP))
        (Pres_trans hPres_rest hP)
      refine ⟨trS ++ trR, ?_, ?_⟩
      · rw [hS]
        simp [hR]
      · simp [List.all_append, hallS, hallR]

/-- A path list processed successfully once is entirely skipped by a later
run whose state extends the first run's effects. -/
theorem processPaths_idem (env : Env) (destRoot : String) (descend : Bool) :
    ∀ (ps : List String) (T T' : St) (fl : List String) (tr : List Ev) (base : St),
      processPaths env destRoot descend T ps = (.ok (), T', fl, tr) →
      base.files.filter pyZipLike = T.files.filter pyZipLike →
      (∀ p ∈ ps, ∀ z ∈ get_all_matching base p ".zip" descend, zipOk env destRoot z = true) →
      ∀ s₂ : St, Pres T' s₂ →
      ∃ tr₂, processPaths env destRoot descend s₂ ps = (.ok (), s₂, [], tr₂) ∧
        tr₂.all isUnzipSkipEv = true
  | [], T, T', fl, tr, base, h1, _, _, s₂, hP => by
    simp only [processPaths] at h1 ⊢
    exact ⟨[], rfl, rfl⟩
  | p :: ps, T, T', fl, tr, base, h1, hbase, hg, s₂, hP => by
    simp only [processPaths] at h1 ⊢
    split at h1
    · rw [Prod.mk.injEq] at h1
      cases h1.1
    · rename_i u st₁ flz trz heqZ
      rcases hps : processPaths env destRoot descend st₁ ps with ⟨rp, st₂x, flp, trp⟩
      rw [hps] at h1
      simp only at h1
      rw [Prod.mk.injEq, Prod.mk.injEq, Prod.mk.injEq] at h1
      obtain ⟨hrp, hst₂x, hflp, htrp⟩ := h1
      subst hrp
      subst hst₂x
      have hguards : ∀ z ∈ get_all_matching T p ".zip" descend, zipOk env destRoot z = true := by
        rw [get_all_matching_eq_of_filterEq hbase.symm p descend]
        exact hg p (List.mem_cons_self p ps)
      have heqZ₂ : processZips env destRoot T (get_all_matching T p ".zip" descend) =
          (.ok (), st₁, flz, trz) := by
        rw [heqZ]
      have hPresZ : Pres T st₁ := by
        have := (processZips_pres env destRoot (get_all_matching T p ".zip" descend) T hguards).1
        rw [heqZ₂] at this
        exact this
      have hbase₂ : base.files.filter pyZipLike = st₁.files.filter pyZipLike :=
        hbase.trans hPresZ.1.symm
      have hPresP : Pres st₁ st₂x := by
        have := (processPaths_pres env destRoot descend ps st₁ base hbase₂
          (fun q hq => hg q (List.mem_cons_of_mem p hq))).1
        rw [hps] at this
        exact this
      obtain ⟨trR, hR, hallR⟩ := processPaths_idem env destRoot descend ps st₁ st₂x flp trp base
        hps hbase₂ (fun q hq => hg q (List.mem_cons_of_mem p hq)) s₂ hP
      have hPresT : Pres T s₂ := Pres_trans hPresZ (Pres_trans hPresP hP)
      have hzips₂ : get_all_matching s₂ p ".zip" descend = get_all_matching T p ".zip" descend :=
        get_all_matching_eq_of_filterEq hPresT.1 p descend
      obtain ⟨trS, hS, hallS⟩ := processZips_idem env destRoot
        (get_all_matching T p ".zip" descend) T st₁ flz trz heqZ₂ hguards s₂
        (Pres_trans hPresP hP)
      refine ⟨trS ++ trR, ?_, ?_⟩
      · rw [hzips₂, hS]
        simp [hR]
      · simp [List.all_append, hallS, hallR]

/-- C5: the entry guard makes convert_flac skip (no deletion, no
extraction, no transcode — the only event is the skip note) any file whose
derived OutputFile already exists; consequently, after a successful
coordinator run over a directory tree of sane archives (no zip extracts
further zips, no destination directory named like a source or output
file), running the coordinator again leaves the state untouched, converts
nothing, raises nothing, and only notes the already-unzipped destinations. -/
theorem entry_guard_skips_and_second_run_is_noop
    (env : Env) (st : St) (destRoot : String) (paths : List String) (descend : Bool)
    {L : List (Option String)} {st₂ : St} {tr₁ : List Ev}
    (hrun1 : main_loop env st destRoot paths descend = (.ok L, st₂, tr₁))
    (hzips : ∀ z ∈ allZipCandidates st paths descend, zipOk env destRoot z = true) :
    (∀ (st₀ : St) (flac : String), existsPath st₀ (mp3Path flac) = true →
      convert_flac env st₀ flac = (.ok none, st₀, [Ev.skipped (mp3Path flac)])) ∧
    ∃ tr₂, main_loop env st₂ destRoot paths descend = (.ok [], st₂, tr₂) ∧
      tr₂.all isUnzipSkipEv = true := by
  constructor
  · intro st₀ flac hex
    simp only [convert_flac, hex, if_true]
  · simp only [main_loop] at hrun1 ⊢
    split at hrun1
    · rw [Prod.mk.injEq] at hrun1
      cases hrun1.1
    · rename_i u st₁ fl trA heqP
      rcases hrp : runPipelines env st₁ fl with ⟨r, st₂y, trB⟩
      rw [hrp] at hrun1
      simp only at hrun1
      rw [Prod.mk.injEq, Prod.mk.injEq] at hrun1
      obtain ⟨hr, hst₂y, htr⟩ := hrun1
      subst hst₂y
      have hguards : ∀ p ∈ paths, ∀ z ∈ get_all_matching st p ".zip" descend,
          zipOk env destRoot z = true :=
        fun p hp z hz => hzips z (mem_allZipCandidates st descend paths p z hp hz)
      have heqP₂ : processPaths env destRoot descend st paths = (.ok (), st₁, fl, trA) := by
        rw [heqP]
      obtain ⟨hPres1, hflacs⟩ := processPaths_pres env destRoot descend paths st st rfl hguards
      rw [heqP₂] at hPres1 hflacs
      simp only at hPres1 hflacs
      have hPres2 : Pres st₁ st₂y := by
        have := pres_runPipelines env fl st₁ hflacs
        rw [hrp] at this
        exact this
      obtain ⟨trR, hR, hallR⟩ := processPaths_idem env destRoot descend paths st st₁ fl trA st
        heqP₂ rfl hguards st₂y hPres2
      refine ⟨trR, ?_, hallR⟩
      rw [hR]
      simp [runPipelines]

/-- Witness for C5: a concrete committing run; the guard skips a file
whose mp3 already exists, and the second coordinator run is a no-op. -/
theorem entry_guard_skips_and_second_run_is_noop_witness :
    convert_flac c5Env stGuard "x.flac" = (.ok none, stGuard, [Ev.skipped "x.mp3"]) ∧
    (∃ tr₂, main_loop c5Env c5St₂ "out" ["root"] true = (.ok [], c5St₂, tr₂) ∧
      tr₂.all isUnzipSkipEv = true) := by
  have hrun1 : main_loop c5Env c5St "out" ["root"] true =
      (.ok [some "out/Artist/Album/t1.mp3"], c5St₂,
       [Ev.unzipped "root/Artist - Album.zip" "out/Artist/Album",
        Ev.metaflacRun "out/Artist/Album/t1.flac",
        Ev.metaflacRun "out/Artist/Album/t1.flac",
        Ev.transcode "out/Artist/Album/t1.flac" "out/Artist/Album/t1.mp3" 0,
        Ev.tagSaved "out/Artist/Album/t1.mp3",
        Ev.fileRemoved "out/Artist/Album/t1.flac"]) := by
    rfl
  have h := entry_guard_skips_and_second_run_is_noop c5Env c5St "out" ["root"] true
    hrun1 (by decide)
  exact ⟨h.1 stGuard "x.flac" (by decide), h.2⟩
